import Mathlib

/-!
# redicoo: session records over a Redis key

A shallow embedding of `redicoo.go`.  The package keeps, under one Redis key per
session, a JSON object that maps a caller-chosen suffix to a byte payload, and
refreshes the key's TTL on every access.

The embedding has three layers:

* Go values: strings are byte sequences, a `[]byte` is either nil or a byte
  sequence, a `map[string][]byte` is either nil or a finite map;
* the two libraries the package calls: `encoding/json` restricted to the one
  type the package marshals (`map[string][]byte`), and the Redis commands
  `GET`, `SET`, `EXPIRE`, `DEL` as issued by `go-redis`;
* the package's own functions, `NewSessionId`, `IsExists`, `Set`, `Get`,
  `Delete`, `Destroy`, written as state-passing functions over the store.
-/

namespace Redicoo

/-! ## Go values -/

/-- A Go `byte`. -/
abbrev Byte := Fin 256

/-- A Go `string` (and the contents of a non-nil `[]byte`): a sequence of bytes,
not necessarily valid UTF-8. -/
abbrev GoString := List Byte

/-- A Go `[]byte` value: `none` is the nil slice. -/
abbrev Payload := Option GoString

/-- The byte with the given value (conversion `byte(n)`, which truncates). -/
def byte (n : Nat) : Byte := ⟨n % 256, Nat.mod_lt _ (by decide)⟩

/-- The bytes of an ASCII string literal. -/
def ascii (s : String) : GoString := s.toList.map (fun c => byte c.toNat)

/-! ## `unicode/utf8` -/

/-- The rune `utf8.RuneError`, U+FFFD. -/
def RuneError : Nat := 0xFFFD

/-- Whether `lo ≤ b ≤ hi`. -/
def inRange (b : Byte) (lo hi : Nat) : Bool := decide (lo ≤ b.val) && decide (b.val ≤ hi)

/-- The accepted range of the second byte after a given lead byte
(`acceptRanges` of package `utf8`). -/
def acceptLo (b0 : Byte) : Nat :=
  if b0.val = 0xE0 then 0xA0 else if b0.val = 0xF0 then 0x90 else 0x80

/-- Upper end of the accepted range of the second byte. -/
def acceptHi (b0 : Byte) : Nat :=
  if b0.val = 0xED then 0x9F else if b0.val = 0xF4 then 0x8F else 0xBF

/-- `utf8.DecodeRune`: the first rune of `p` and its width in bytes.  An
invalid or truncated encoding gives `(RuneError, 1)`, the empty input
`(RuneError, 0)`. -/
def decodeRune : GoString → Nat × Nat
  | [] => (RuneError, 0)
  | b0 :: rest =>
    if b0.val < 0x80 then (b0.val, 1)
    else if b0.val < 0xC2 then (RuneError, 1)
    else if b0.val < 0xE0 then
      match rest with
      | b1 :: _ =>
        if inRange b1 0x80 0xBF then (b0.val % 32 * 64 + b1.val % 64, 2)
        else (RuneError, 1)
      | [] => (RuneError, 1)
    else if b0.val < 0xF0 then
      match rest with
      | b1 :: b2 :: _ =>
        if inRange b1 (acceptLo b0) (acceptHi b0) && inRange b2 0x80 0xBF then
          (b0.val % 16 * 4096 + b1.val % 64 * 64 + b2.val % 64, 3)
        else (RuneError, 1)
      | _ => (RuneError, 1)
    else if b0.val < 0xF5 then
      match rest with
      | b1 :: b2 :: b3 :: _ =>
        if inRange b1 (acceptLo b0) (acceptHi b0) && inRange b2 0x80 0xBF
            && inRange b3 0x80 0xBF then
          (b0.val % 8 * 262144 + b1.val % 64 * 4096 + b2.val % 64 * 64 + b3.val % 64, 4)
        else (RuneError, 1)
      | _ => (RuneError, 1)
    else (RuneError, 1)

/-- `utf8.EncodeRune` (also `utf8.AppendRune`): the UTF-8 encoding of a rune;
surrogates and values above U+10FFFF are encoded as U+FFFD. -/
def encodeRune (r : Nat) : GoString :=
  if r < 0x80 then [byte r]
  else if r < 0x800 then [byte (0xC0 + r / 64), byte (0x80 + r % 64)]
  else if 0x10FFFF < r ∨ (0xD800 ≤ r ∧ r ≤ 0xDFFF) then [0xEF, 0xBF, 0xBD]
  else if r < 0x10000 then
    [byte (0xE0 + r / 4096), byte (0x80 + r / 64 % 64), byte (0x80 + r % 64)]
  else
    [byte (0xF0 + r / 262144), byte (0x80 + r / 4096 % 64), byte (0x80 + r / 64 % 64),
      byte (0x80 + r % 64)]

/-- Loop of `utf8.Valid`, with `skip` bytes of the current rune still to pass. -/
def validAux : Nat → GoString → Bool
  | _, [] => true
  | skip + 1, _ :: rest => validAux skip rest
  | 0, b :: rest =>
    let d := decodeRune (b :: rest)
    if d.1 = RuneError ∧ d.2 = 1 then false else validAux (d.2 - 1) rest

/-- `utf8.Valid` / `utf8.ValidString`: the string is a sequence of valid
UTF-8 encodings. -/
def utf8Valid (s : GoString) : Bool := validAux 0 s

/-! ## `encoding/base64`, `StdEncoding` -/

/-- The character of a six-bit value in the standard alphabet. -/
def b64Char (n : Nat) : Byte :=
  if n < 26 then byte (65 + n)
  else if n < 52 then byte (71 + n)
  else if n < 62 then byte (n - 4)
  else if n = 62 then 43
  else 47

/-- The six-bit value of a character of the standard alphabet (`decodeMap`). -/
def b64Val (c : Byte) : Option Nat :=
  if 65 ≤ c.val ∧ c.val ≤ 90 then some (c.val - 65)
  else if 97 ≤ c.val ∧ c.val ≤ 122 then some (c.val - 71)
  else if 48 ≤ c.val ∧ c.val ≤ 57 then some (c.val + 4)
  else if c.val = 43 then some 62
  else if c.val = 47 then some 63
  else none

/-- `base64.StdEncoding.AppendEncode`: three bytes become four characters, the
last group is padded with `=`. -/
def b64Encode : GoString → GoString
  | [] => []
  | [a] => [b64Char (a.val / 4), b64Char (a.val % 4 * 16), 61, 61]
  | [a, b] =>
    [b64Char (a.val / 4), b64Char (a.val % 4 * 16 + b.val / 16), b64Char (b.val % 16 * 4), 61]
  | a :: b :: c :: rest =>
    b64Char (a.val / 4) :: b64Char (a.val % 4 * 16 + b.val / 16)
      :: b64Char (b.val % 16 * 4 + c.val / 64) :: b64Char (c.val % 64) :: b64Encode rest

/-- The quanta of `base64.StdEncoding.Decode` on an input without line breaks:
groups of four characters; padding only ends the last group; the unused low
bits of a padded group are ignored (the encoding is not strict). -/
def b64DecodeQuanta : GoString → Option GoString
  | [] => some []
  | c0 :: c1 :: c2 :: c3 :: rest =>
    match b64Val c0, b64Val c1 with
    | some d0, some d1 =>
      match b64Val c2, b64Val c3 with
      | some d2, some d3 =>
        (b64DecodeQuanta rest).map (fun out =>
          byte (d0 * 4 + d1 / 16) :: byte (d1 % 16 * 16 + d2 / 4) :: byte (d2 % 4 * 64 + d3)
            :: out)
      | some d2, none =>
        if c3 = 61 ∧ rest = [] then
          some [byte (d0 * 4 + d1 / 16), byte (d1 % 16 * 16 + d2 / 4)]
        else none
      | none, _ =>
        if c2 = 61 ∧ c3 = 61 ∧ rest = [] then some [byte (d0 * 4 + d1 / 16)] else none
    | _, _ => none
  | _ => none

/-- `base64.StdEncoding.Decode`: carriage returns and line feeds are skipped
wherever they stand. -/
def b64Decode (s : GoString) : Option GoString :=
  b64DecodeQuanta (s.filter (fun c => !(c = 10 || c = 13)))

/-! ## Go maps of type `map[string][]byte` -/

/-- The entries of a non-nil `map[string][]byte`; a key occurs once. -/
abbrev GoMap := List (GoString × Payload)

/-- Comparison of Go strings, `a < b`: bytewise lexicographic. -/
def strLt : GoString → GoString → Bool
  | [], [] => false
  | [], _ :: _ => true
  | _ :: _, [] => false
  | a :: as, b :: bs => if a.val < b.val then true else if b.val < a.val then false else strLt as bs

/-- Insertion of an entry before the first entry with a greater key. -/
def insertSorted (k : GoString) (v : Payload) : GoMap → GoMap
  | [] => [(k, v)]
  | e :: es => if strLt k e.1 then (k, v) :: e :: es else e :: insertSorted k v es

/-- The builtin `delete(m, k)`. -/
def mapDelete (m : GoMap) (k : GoString) : GoMap := m.filter (fun e => !(e.1 = k))

/-- The assignment `m[k] = v`. -/
def mapAssign (m : GoMap) (k : GoString) (v : Payload) : GoMap :=
  insertSorted k v (mapDelete m k)

/-- The lookup `v, ok := m[k]`: `none` when `ok` is false. -/
def mapIndex : GoMap → GoString → Option Payload
  | [], _ => none
  | e :: es, k => if e.1 = k then some e.2 else mapIndex es k

/-! ## `encoding/json`: `Marshal` of a `map[string][]byte` -/

/-- The lower-case hexadecimal digit of a value below sixteen. -/
def hexDigit (n : Nat) : Byte := if n < 10 then byte (48 + n) else byte (87 + n)

/-- The table `htmlSafeSet` on ASCII bytes: the bytes `Marshal` writes
unescaped inside a string. -/
def htmlSafe (b : Byte) : Bool :=
  decide (0x20 ≤ b.val) && !(b = 0x22 || b = 0x26 || b = 0x3C || b = 0x3E || b = 0x5C)

/-- One iteration of the loop of `appendString` at a non-empty rest of the
source: the bytes written and the number of source bytes consumed. -/
def appendStringStep : GoString → GoString × Nat
  | [] => ([], 1)
  | b :: rest =>
    if b.val < 0x80 then
      if htmlSafe b then ([b], 1)
      else if b = 0x5C ∨ b = 0x22 then ([0x5C, b], 1)
      else if b = 0x08 then ([0x5C, 0x62], 1)
      else if b = 0x0C then ([0x5C, 0x66], 1)
      else if b = 0x0A then ([0x5C, 0x6E], 1)
      else if b = 0x0D then ([0x5C, 0x72], 1)
      else if b = 0x09 then ([0x5C, 0x74], 1)
      else ([0x5C, 0x75, 0x30, 0x30, hexDigit (b.val / 16), hexDigit (b.val % 16)], 1)
    else
      let d := decodeRune (b :: rest)
      if d.1 = RuneError ∧ d.2 = 1 then ([0x5C, 0x75, 0x66, 0x66, 0x66, 0x64], 1)
      else if d.1 = 0x2028 ∨ d.1 = 0x2029 then
        ([0x5C, 0x75, 0x32, 0x30, 0x32, hexDigit (d.1 % 16)], d.2)
      else ((b :: rest).take d.2, d.2)

/-- The loop of `appendString`, with `skip` bytes of the current rune still to
pass. -/
def appendStringAux : Nat → GoString → GoString
  | _, [] => []
  | skip + 1, _ :: rest => appendStringAux skip rest
  | 0, b :: rest =>
    (appendStringStep (b :: rest)).1 ++ appendStringAux ((appendStringStep (b :: rest)).2 - 1) rest

/-- The function `appendString(dst, src, escapeHTML = true)` of `encoding/json`:
`src` as a JSON string literal.  A byte that is not valid UTF-8 is written as
the escape of U+FFFD. -/
def appendString (src : GoString) : GoString :=
  0x22 :: (appendStringAux 0 src ++ [0x22])

/-- The function `encodeByteSlice`: `null` for the nil slice, else the base64
text between quotes. -/
def encodeByteSlice : Payload → GoString
  | none => [0x6E, 0x75, 0x6C, 0x6C]
  | some bs => 0x22 :: (b64Encode bs ++ [0x22])

/-- One member of the object, `"key":value`. -/
def encodeMember (e : GoString × Payload) : GoString :=
  appendString e.1 ++ 0x3A :: encodeByteSlice e.2

/-- The members of the object, separated by commas. -/
def encodeMembers : GoMap → GoString
  | [] => []
  | [e] => encodeMember e
  | e :: es => encodeMember e ++ 0x2C :: encodeMembers es

/-- The entries in ascending order of their keys, as `mapEncoder.encode` sorts
them (`slices.SortFunc` with `strings.Compare`) before it writes them. -/
def sortEntries : GoMap → GoMap
  | [] => []
  | e :: es => insertSorted e.1 e.2 (sortEntries es)

/-- `json.Marshal(kv)` for a non-nil `kv map[string][]byte`; it cannot fail. -/
def Marshal (kv : GoMap) : GoString :=
  0x7B :: (encodeMembers (sortEntries kv) ++ [0x7D])

/-! ## `encoding/json`: `Unmarshal` into a `map[string][]byte` -/

/-- The value of a hexadecimal digit, either case. -/
def hexVal (c : Byte) : Option Nat :=
  if 48 ≤ c.val ∧ c.val ≤ 57 then some (c.val - 48)
  else if 97 ≤ c.val ∧ c.val ≤ 102 then some (c.val - 87)
  else if 65 ≤ c.val ∧ c.val ≤ 70 then some (c.val - 55)
  else none

/-- The function `getu4`: the value of a leading `\uXXXX`, `none` for the
result `-1`. -/
def getu4 : GoString → Option Nat
  | b :: u :: h1 :: h2 :: h3 :: h4 :: _ =>
    if b = 0x5C ∧ u = 0x75 then
      match hexVal h1, hexVal h2, hexVal h3, hexVal h4 with
      | some a, some b, some c, some d => some (((a * 16 + b) * 16 + c) * 16 + d)
      | _, _, _, _ => none
    else none
  | _ => none

/-- What one iteration of the string decoder does at a non-empty rest of the
input. -/
inductive UStep where
  | close
  | fail
  | emit (out : GoString) (size : Nat)

/-- One iteration inside a string literal, as the scanner accepts it and
`unquoteBytes` converts it: the closing quote, an escape, an ASCII byte, or a
rune which is re-encoded (invalid UTF-8 becomes U+FFFD). -/
def unquoteStep : GoString → UStep
  | [] => .fail
  | c :: rest =>
    if c = 0x22 then .close
    else if c = 0x5C then
      match rest with
      | [] => .fail
      | e :: _ =>
        if e = 0x22 ∨ e = 0x5C ∨ e = 0x2F then .emit [e] 2
        else if e = 0x62 then .emit [0x08] 2
        else if e = 0x66 then .emit [0x0C] 2
        else if e = 0x6E then .emit [0x0A] 2
        else if e = 0x72 then .emit [0x0D] 2
        else if e = 0x74 then .emit [0x09] 2
        else if e = 0x75 then
          match getu4 (c :: rest) with
          | none => .fail
          | some rr =>
            if 0xD800 ≤ rr ∧ rr < 0xE000 then
              match getu4 (rest.drop 5) with
              | some rr1 =>
                if rr < 0xDC00 ∧ 0xDC00 ≤ rr1 ∧ rr1 < 0xE000 then
                  .emit (encodeRune ((rr - 0xD800) * 1024 + (rr1 - 0xDC00) + 0x10000)) 12
                else .emit (encodeRune RuneError) 6
              | none => .emit (encodeRune RuneError) 6
            else .emit (encodeRune rr) 6
        else .fail
    else if c.val < 0x20 then .fail
    else if c.val < 0x80 then .emit [c] 1
    else .emit (encodeRune (decodeRune (c :: rest)).1) (decodeRune (c :: rest)).2

/-- The string decoder after the opening quote, with `skip` bytes of the
current step still to pass: the decoded string and the input after the closing
quote. -/
def unquoteAux : Nat → GoString → Option (GoString × GoString)
  | _, [] => none
  | skip + 1, _ :: rest => unquoteAux skip rest
  | 0, c :: rest =>
    match unquoteStep (c :: rest) with
    | .close => some ([], rest)
    | .fail => none
    | .emit out size => (unquoteAux (size - 1) rest).map (fun r => (out ++ r.1, r.2))

/-- A JSON string literal at the head of the input. -/
def parseString : GoString → Option (GoString × GoString)
  | [] => none
  | c :: rest => if c = 0x22 then unquoteAux 0 rest else none

/-- JSON white space: space, tab, line feed, carriage return. -/
def isSpace (c : Byte) : Bool := c = 0x20 || c = 0x09 || c = 0x0A || c = 0x0D

/-- The input after leading white space. -/
def skipWs : GoString → GoString
  | [] => []
  | c :: rest => if isSpace c then skipWs rest else c :: rest

/-- Where the decoder stands inside an array that is read into a `[]byte`. -/
inductive ArrayPos where
  /-- After the opening bracket: an element or the closing bracket. -/
  | first
  /-- After a comma: an element. -/
  | next
  /-- Inside a number that began with a digit other than `0`, with its value. -/
  | digits (n : Nat)
  /-- After the number `0`. -/
  | zero
  /-- Inside the literal `null`, with the number of letters read. -/
  | null (k : Nat)
  /-- After an element: a comma or the closing bracket. -/
  | after

/-- An array value read into a `[]byte`, after the opening bracket: an element
is a number written as `0` to `255` in decimal digits, or `null`, which leaves
the byte zero; every other element is an error (of syntax, or of type for a
`uint8`).  The bytes and the input after the closing bracket. -/
def parseByteArray : ArrayPos → GoString → GoString → Option (GoString × GoString)
  | _, _, [] => none
  | pos, acc, c :: rest =>
    match pos with
    | .first =>
      if isSpace c then parseByteArray .first acc rest
      else if c = 0x5D then some (acc, rest)
      else if c = 0x30 then parseByteArray .zero acc rest
      else if 0x31 ≤ c.val ∧ c.val ≤ 0x39 then
        parseByteArray (.digits (c.val - 0x30)) acc rest
      else if c = 0x6E then parseByteArray (.null 1) acc rest
      else none
    | .next =>
      if isSpace c then parseByteArray .next acc rest
      else if c = 0x30 then parseByteArray .zero acc rest
      else if 0x31 ≤ c.val ∧ c.val ≤ 0x39 then
        parseByteArray (.digits (c.val - 0x30)) acc rest
      else if c = 0x6E then parseByteArray (.null 1) acc rest
      else none
    | .digits n =>
      if 0x30 ≤ c.val ∧ c.val ≤ 0x39 then
        if n * 10 + (c.val - 0x30) ≤ 255 then
          parseByteArray (.digits (n * 10 + (c.val - 0x30))) acc rest
        else none
      else if isSpace c then parseByteArray .after (acc ++ [byte n]) rest
      else if c = 0x2C then parseByteArray .next (acc ++ [byte n]) rest
      else if c = 0x5D then some (acc ++ [byte n], rest)
      else none
    | .zero =>
      if isSpace c then parseByteArray .after (acc ++ [0]) rest
      else if c = 0x2C then parseByteArray .next (acc ++ [0]) rest
      else if c = 0x5D then some (acc ++ [0], rest)
      else none
    | .null k =>
      if k = 1 ∧ c = 0x75 then parseByteArray (.null 2) acc rest
      else if k = 2 ∧ c = 0x6C then parseByteArray (.null 3) acc rest
      else if k = 3 ∧ c = 0x6C then parseByteArray .after (acc ++ [0]) rest
      else none
    | .after =>
      if isSpace c then parseByteArray .after acc rest
      else if c = 0x2C then parseByteArray .next acc rest
      else if c = 0x5D then some (acc, rest)
      else none

/-- A value of a member, decoded into a `[]byte`: `null` gives the nil slice,
a string is base64 text, an array gives its elements as bytes; any other value
is an error (of syntax or of type). -/
def parseValue : GoString → Option (Payload × GoString)
  | [] => none
  | c :: rest =>
    if c = 0x22 then
      match unquoteAux 0 rest with
      | none => none
      | some (s, rest1) =>
        match b64Decode s with
        | none => none
        | some bs => some (some bs, rest1)
    else if c = 0x5B then
      (parseByteArray .first [] rest).map (fun r => (some r.1, r.2))
    else
      match c :: rest with
      | n :: u :: l1 :: l2 :: rest1 =>
        if n = 0x6E ∧ u = 0x75 ∧ l1 = 0x6C ∧ l2 = 0x6C then some (none, rest1) else none
      | _ => none

/-- The members of an object after the opening brace and white space, up to
the closing brace; a later member with the same key replaces an earlier one.
`fuel` bounds the number of members. -/
def parseMembers : Nat → GoString → GoMap → Option (GoMap × GoString)
  | 0, _, _ => none
  | fuel + 1, input, acc =>
    match parseString input with
    | none => none
    | some (k, rest) =>
      match skipWs rest with
      | [] => none
      | colon :: rest1 =>
        if colon = 0x3A then
          match parseValue (skipWs rest1) with
          | none => none
          | some (v, rest2) =>
            match skipWs rest2 with
            | [] => none
            | sep :: rest3 =>
              if sep = 0x7D then some (mapAssign acc k v, rest3)
              else if sep = 0x2C then parseMembers fuel (skipWs rest3) (mapAssign acc k v)
              else none
        else none

/-- What `json.Unmarshal(data, &kv)` does to a fresh `kv := make(map[string][]byte)`. -/
inductive Unmarshaled where
  /-- An error is returned. -/
  | error
  /-- The document is `null`: no error, and `kv` is set to the nil map. -/
  | null
  /-- The document is an object: no error, and `kv` holds its members. -/
  | object (kv : GoMap)
  deriving DecidableEq

/-- `json.Unmarshal(data, &kv)` for `kv := make(map[string][]byte)`.  It
succeeds on `null` and on an object whose values are `null`, base64 strings or
arrays of bytes, between optional white space; every other input is an
error. -/
def Unmarshal (data : GoString) : Unmarshaled :=
  match skipWs data with
  | [] => .error
  | c :: rest =>
    if c = 0x7B then
      match skipWs rest with
      | [] => .error
      | c1 :: rest1 =>
        if c1 = 0x7D then (if skipWs rest1 = [] then .object [] else .error)
        else
          match parseMembers (c1 :: rest1).length (c1 :: rest1) [] with
          | none => .error
          | some (kv, rest2) => if skipWs rest2 = [] then .object kv else .error
    else
      match c :: rest with
      | n :: u :: l1 :: l2 :: rest1 =>
        if n = 0x6E ∧ u = 0x75 ∧ l1 = 0x6C ∧ l2 = 0x6C ∧ skipWs rest1 = [] then .null
        else .error
      | _ => .error

/-! ## The Redis store -/

/-- A stored string with its expiry: `expireAt` is the time, in milliseconds
of the server clock, from which the key is gone; `none` is a key without
expiry. -/
structure Entry where
  val : GoString
  expireAt : Option Nat
  deriving DecidableEq

/-- The selected database of the Redis server, with the server clock.  An
entry whose expiry time has passed is still in `data` but no command sees it
(lazy expiry). -/
structure Store where
  now : Nat
  data : GoString → Option Entry

/-- The live entry of a key: none when the key was never set, was deleted, or
has expired. -/
def Store.lookup (st : Store) (key : GoString) : Option Entry :=
  match st.data key with
  | none => none
  | some e =>
    match e.expireAt with
    | none => some e
    | some t => if t ≤ st.now then none else some e

/-- The command `GET key`: `none` is the nil reply (`redis.Nil`). -/
def Store.get (st : Store) (key : GoString) : Option GoString :=
  (st.lookup key).map Entry.val

/-- The command `PTTL key` on a live key: the remaining time in milliseconds,
`none` for a key without expiry.  The outer `none` is an absent key. -/
def Store.pttl (st : Store) (key : GoString) : Option (Option Nat) :=
  (st.lookup key).map (fun e => e.expireAt.map (fun t => t - st.now))

/-- The command `SET key value [PX ms]`: the old value and the old expiry are
discarded. -/
def Store.set (st : Store) (key value : GoString) (px : Option Nat) : Store :=
  { st with data := (Function.update st.data key
      (some ⟨value, px.map (fun ms => st.now + ms)⟩)) }

/-- The command `SET key value KEEPTTL`: the expiry of a live key is kept. -/
def Store.setKeepTTL (st : Store) (key value : GoString) : Store :=
  { st with data := (Function.update st.data key
      (some ⟨value, (st.lookup key).bind Entry.expireAt⟩)) }

/-- The command `EXPIRE key seconds`: `false` (reply 0) when the key is absent;
otherwise the reply is 1, and the key is deleted when `seconds` is not
positive. -/
def Store.expire (st : Store) (key : GoString) (seconds : Int) : Bool × Store :=
  match st.lookup key with
  | none => (false, st)
  | some e =>
    if seconds ≤ 0 then (true, { st with data := Function.update st.data key none })
    else (true, { st with data := (Function.update st.data key
      (some ⟨e.val, some (st.now + seconds.toNat * 1000)⟩)) })

/-- The command `DEL key`: the number of keys removed, and the store. -/
def Store.del (st : Store) (key : GoString) : Nat × Store :=
  (if (st.lookup key).isSome then 1 else 0,
    { st with data := Function.update st.data key none })

/-- The server clock advances by `dt` milliseconds. -/
def Store.elapse (st : Store) (dt : Nat) : Store := { st with now := st.now + dt }

/-! ## `go-redis`: durations and commands -/

/-- A 64-bit signed integer from an unbounded one (two's complement wrap). -/
def wrapInt64 (x : Int) : Int := (x + 2 ^ 63) % 2 ^ 64 - 2 ^ 63

/-- The expression `time.Duration(lifetime) * time.Second`, in nanoseconds:
a product of `int64` values. -/
def duration (lifetime : Int) : Int := wrapInt64 (lifetime * 1000000000)

/-- The constant `redis.KeepTTL`. -/
def KeepTTL : Int := -1

/-- The function `usePrecise` of `go-redis`. -/
def usePrecise (dur : Int) : Bool :=
  decide (dur < 1000000000) || decide (Int.tmod dur 1000000000 ≠ 0)

/-- The function `formatMs` of `go-redis`. -/
def formatMs (dur : Int) : Int :=
  if 0 < dur ∧ dur < 1000000 then 1 else Int.tdiv dur 1000000

/-- The function `formatSec` of `go-redis`. -/
def formatSec (dur : Int) : Int :=
  if 0 < dur ∧ dur < 1000000000 then 1 else Int.tdiv dur 1000000000

/-- The call `client.Set(ctx, key, value, expiration)` on a reachable store: a
positive expiration is sent as `PX` or `EX`, `KeepTTL` as `KEEPTTL`, any other
one is not sent at all.  A nil `value` is sent as the empty string. -/
def clientSet (st : Store) (key value : GoString) (expiration : Int) : Store :=
  if 0 < expiration then
    if usePrecise expiration then st.set key value (some (formatMs expiration).toNat)
    else st.set key value (some ((formatSec expiration).toNat * 1000))
  else if expiration = KeepTTL then st.setKeepTTL key value
  else st.set key value none

/-- The call `pipe.Expire(ctx, key, expiration)`. -/
def clientExpire (st : Store) (key : GoString) (expiration : Int) : Bool × Store :=
  st.expire key (formatSec expiration)

/-! ## The package `redicoo` -/

/-- The error values a call can return. -/
inductive GoError where
  /-- The package variable `ErrorKeyNotFound`, also when wrapped by `%w`. -/
  | ErrorKeyNotFound
  /-- The package variable `ErrorSuffiedKeyNotFound`, also when wrapped. -/
  | ErrorSuffiedKeyNotFound
  /-- The package variable `ErrorFailed`, also when wrapped. -/
  | ErrorFailed
  /-- The value `redis.TxFailedErr`. -/
  | TxFailedErr
  /-- An error of `json.Unmarshal`. -/
  | jsonError
  /-- An error of the connection to the store. -/
  | transport
  deriving DecidableEq

/-- How a call ends: it returns a value and a nil error, it returns an error,
or it panics. -/
inductive Result (α : Type) where
  | ok (a : α)
  | err (e : GoError)
  | panic
  deriving DecidableEq

/-- The constant `matRetries`. -/
def matRetries : Nat := 10

/-- The replies of the pipelined batch `GET key`, `EXPIRE key seconds`. -/
structure Batch where
  /-- Reply of `GET`: `none` is `redis.Nil`. -/
  get : Option GoString
  /-- Reply of `EXPIRE`. -/
  exp : Bool
  deriving DecidableEq

/-- The call `client.Pipelined` of `IsExists` and `Get`: the two commands are
sent together and run one after the other; `gap` is the time that passes at
the server between them. -/
def pipelinedGetExpire (lifetime : Int) (gap : Nat) (st : Store) (key : GoString) :
    Batch × Store :=
  (⟨st.get key, (clientExpire (st.elapse gap) key (duration lifetime)).1⟩,
    (clientExpire (st.elapse gap) key (duration lifetime)).2)

/-- `client.Watch(ctx, txf, key)`: `WATCH key` is sent on a connection of its
own, `txf` runs, the connection is closed, and the error of `txf` is returned.
`WATCH` changes nothing at the store, and only an `EXEC` on that connection,
which `txf` never sends, could report `redis.TxFailedErr`. -/
def Watch {σ : Type} (txf : σ → Result Unit × σ) (st : σ) : Result Unit × σ := txf st

/-- The loop `for i := 0; i < matRetries; i++` of `Set` and of `Delete`, for
`n` remaining iterations: a nil error and any error other than
`redis.TxFailedErr` are returned, `redis.TxFailedErr` continues, and the loop
running out returns `ErrorFailed`. -/
def retryLoop {σ : Type} (attempt : σ → Result Unit × σ) : Nat → σ → Result Unit × σ
  | 0, st => (.err .ErrorFailed, st)
  | n + 1, st =>
    match attempt st with
    | (.ok _, st1) => (.ok (), st1)
    | (.err .TxFailedErr, st1) => retryLoop attempt n st1
    | (r, st1) => (r, st1)

namespace RedisClient

/-- `RedisClient.NewSessionId`, from the computed `keystr` on: the key is
written with the nil value and the lifetime, and returned. -/
def NewSessionId (lifetime : Int) (keystr : GoString) (st : Store) :
    Result GoString × Store :=
  (.ok keystr, clientSet st keystr [] (duration lifetime))

/-- `RedisClient.IsExists`: the boolean and the error. -/
def IsExists (lifetime : Int) (gap : Nat) (st : Store) (key : GoString) :
    (Bool × Option GoError) × Store :=
  let r := pipelinedGetExpire lifetime gap st key
  match r.1.get with
  | none => ((false, some .ErrorKeyNotFound), r.2)
  | some _ =>
    if !r.1.exp then ((false, some .ErrorFailed), r.2)
    else ((true, none), r.2)

/-- The body of `RedisClient.Get` after the batch (lines 259 to 298).  The
error built when `EXPIRE` replied false (lines 269 to 271) is a value that is
dropped: there is no `return`. -/
def getFromBatch (cmds : Batch) (suffix : GoString) : Result Payload :=
  match cmds.get with
  | none => .err .ErrorKeyNotFound
  | some res =>
    let _unreturned : Option GoError := if !cmds.exp then some .ErrorFailed else none
    if res.length = 0 then .err .ErrorSuffiedKeyNotFound
    else
      match Unmarshal res with
      | .error => .err .jsonError
      | .null => .err .ErrorSuffiedKeyNotFound
      | .object kv =>
        match mapIndex kv suffix with
        | none => .err .ErrorSuffiedKeyNotFound
        | some val => .ok val

/-- `RedisClient.Get`. -/
def Get (lifetime : Int) (gap : Nat) (st : Store) (key suffix : GoString) :
    Result Payload × Store :=
  let r := pipelinedGetExpire lifetime gap st key
  (getFromBatch r.1 suffix, r.2)

/-- The function `txf` of `Set` between its two commands (lines 171 to 196):
from the reply of `GET` to the document to write.  Assigning into the nil map
that `null` decodes to panics. -/
def setCompute (res : Option GoString) (suffix : GoString) (value : Payload) :
    Result GoString :=
  match res with
  | none => .err .ErrorKeyNotFound
  | some res =>
    match (if res.length > 0 then Unmarshal res else .object []) with
    | .error => .err .jsonError
    | .null => .panic
    | .object kv => .ok (Marshal (mapAssign kv suffix value))

/-- The function `txf` of `Set`: `GET`, then `SET` with the lifetime. -/
def setTxf (lifetime : Int) (key suffix : GoString) (value : Payload) (st : Store) :
    Result Unit × Store :=
  match setCompute (st.get key) suffix value with
  | .ok jsonData => (.ok (), clientSet st key jsonData (duration lifetime))
  | .err e => (.err e, st)
  | .panic => (.panic, st)

/-- `RedisClient.Set`. -/
def Set (lifetime : Int) (st : Store) (key suffix : GoString) (value : Payload) :
    Result Unit × Store :=
  retryLoop (Watch (setTxf lifetime key suffix value)) matRetries st

/-- The function `txf` of `Delete` between its two commands (lines 320 to
366): from the reply of `GET` to the value to write, which is the nil value
(the empty string) when the last field is removed. -/
def deleteCompute (res : Option GoString) (suffix : GoString) : Result GoString :=
  match res with
  | none => .err .ErrorKeyNotFound
  | some res =>
    if res.length = 0 then .err .ErrorSuffiedKeyNotFound
    else
      match Unmarshal res with
      | .error => .err .jsonError
      | .null => .err .ErrorSuffiedKeyNotFound
      | .object kv =>
        match mapIndex kv suffix with
        | none => .err .ErrorSuffiedKeyNotFound
        | some _ =>
          if (mapDelete kv suffix).length = 0 then .ok []
          else .ok (Marshal (mapDelete kv suffix))

/-- The function `txf` of `Delete`: `GET`, then `SET` with the lifetime. -/
def deleteTxf (lifetime : Int) (key suffix : GoString) (st : Store) :
    Result Unit × Store :=
  match deleteCompute (st.get key) suffix with
  | .ok data => (.ok (), clientSet st key data (duration lifetime))
  | .err e => (.err e, st)
  | .panic => (.panic, st)

/-- `RedisClient.Delete`. -/
def Delete (lifetime : Int) (st : Store) (key suffix : GoString) : Result Unit × Store :=
  retryLoop (Watch (deleteTxf lifetime key suffix)) matRetries st

/-- `RedisClient.Destroy` on a reachable store: `DEL key`, and no error
whatever the reply. -/
def Destroy (st : Store) (key : GoString) : Result Unit × Store :=
  (.ok (), (st.del key).2)

end RedisClient

/-! ## Two concurrent calls of `Set`

Each attempt of `Set` sends two commands, `GET` and `SET`, and other clients'
commands may run at the server between them.  The commands of two calls are
interleaved by a schedule. -/

/-- The arguments of a call of `RedisClient.Set`. -/
structure SetCall where
  key : GoString
  suffix : GoString
  value : Payload

/-- Where a call of `Set` stands: before the `GET` of attempt `i`, between the
`GET` and the `SET` of attempt `i` with the reply of `GET`, or returned. -/
inductive Phase where
  | start (i : Nat)
  | read (i : Nat) (res : Option GoString)
  | done (r : Result Unit)
  deriving DecidableEq

/-- The next command of a call of `Set` and what follows it up to the next
command: at `start` the `GET` of `txf`; at `read` the rest of `txf`, with
its `SET`, and the test of the loop on the error. -/
def SetCall.step (lifetime : Int) (c : SetCall) : Phase → Store → Phase × Store
  | .start i, st =>
    if i < matRetries then (.read i (st.get c.key), st) else (.done (.err .ErrorFailed), st)
  | .read i res, st =>
    match RedisClient.setCompute res c.suffix c.value with
    | .ok jsonData => (.done (.ok ()), clientSet st c.key jsonData (duration lifetime))
    | .err .TxFailedErr => (.start (i + 1), st)
    | .err e => (.done (.err e), st)
    | .panic => (.done .panic, st)
  | .done r, st => (.done r, st)

/-- Two calls of `Set` in progress on one store. -/
structure TwoCalls where
  first : Phase
  second : Phase
  store : Store

/-- The commands of two calls in the order of a schedule: `false` lets the
first call take its next step, `true` the second. -/
def runTwo (lifetime : Int) (c1 c2 : SetCall) : List Bool → TwoCalls → TwoCalls
  | [], s => s
  | false :: sched, s =>
    runTwo lifetime c1 c2 sched
      ⟨(c1.step lifetime s.first s.store).1, s.second, (c1.step lifetime s.first s.store).2⟩
  | true :: sched, s =>
    runTwo lifetime c1 c2 sched
      ⟨s.first, (c2.step lifetime s.second s.store).1, (c2.step lifetime s.second s.store).2⟩

/-! ## Notions used in the statements and proofs -/

/-- The result of the string decoder with `out` put before the decoded string. -/
def emitted (out : GoString) (r : Option (GoString × GoString)) : Option (GoString × GoString) :=
  r.map (fun p => (out ++ p.1, p.2))

/-- A byte the decoder copies: ASCII, not a control character, not a quote or
a backslash. -/
def plainByte (c : Byte) : Bool :=
  decide (0x20 ≤ c.val) && decide (c.val < 0x80) && !(c = 0x22 || c = 0x5C)

/-- The keys of the entries. -/
def mapKeys (m : GoMap) : List GoString := m.map Prod.fst

/-- A map as the package builds it: keys are valid UTF-8 and no key occurs
twice. -/
def WellFormed (m : GoMap) : Prop := (∀ e ∈ m, utf8Valid e.1 = true) ∧ (mapKeys m).Nodup

/-- Reading the members of a map one after the other into `acc`. -/
def assignAll (acc : GoMap) (es : GoMap) : GoMap :=
  es.foldl (fun a e => mapAssign a e.1 e.2) acc

/-! ## Example stores and calls -/

/-- A store without keys, at time zero. -/
def emptyStore : Store := ⟨0, fun _ => none⟩

/-- The key of the example session. -/
def exampleKey : GoString := ascii "k"

/-- A store with one newly created session, of lifetime 600 seconds. -/
def sessionStore : Store := (RedisClient.NewSessionId 600 exampleKey emptyStore).2

/-- The state before attempt `i` of the loop (counting from zero), when every
earlier attempt was made. -/
def stateBefore {σ : Type} (attempt : σ → Result Unit × σ) (st : σ) : Nat → σ
  | 0 => st
  | i + 1 => (attempt (stateBefore attempt st i)).2

/-- An attempt that also counts the attempts made. -/
def counting {σ : Type} (attempt : σ → Result Unit × σ) (p : σ × Nat) :
    Result Unit × (σ × Nat) :=
  ((attempt p.1).1, ((attempt p.1).2, p.2 + 1))

/-- An attempt that always reports a conflict, on a state that is the number
of the attempt. -/
def alwaysConflict (i : Nat) : Result Unit × Nat := (.err .TxFailedErr, i + 1)

/-- A store, at time zero, whose session was created with a lifetime of one
second and holds the field `"a"` with payload `[7]`: the key expires at
time 1000. -/
def shortStore : Store :=
  (RedisClient.Set 1 (RedisClient.NewSessionId 1 exampleKey emptyStore).2 exampleKey
    (ascii "a") (some [7])).2

/-- The call `Set(key, "a", [1])` on the example session. -/
def callA : SetCall := ⟨exampleKey, ascii "a", some [1]⟩

/-- The call `Set(key, "b", [2])` on the example session. -/
def callB : SetCall := ⟨exampleKey, ascii "b", some [2]⟩

/-- What `Get` returns for a suffix from a decoded record. -/
def recordLookup (kv : GoMap) (suffix : GoString) : Result Payload :=
  match mapIndex kv suffix with
  | none => .err .ErrorSuffiedKeyNotFound
  | some val => .ok val

/-- The record a stored value decodes to, when it decodes to one: the empty
value is the empty record. -/
def decodesTo (res : GoString) (kv : GoMap) : Prop :=
  (if res.length > 0 then Unmarshal res else .object []) = .object kv

/-- A store whose session holds the one field `"a"` with payload `[7]`. -/
def fieldStore : Store :=
  (RedisClient.Set 600 sessionStore exampleKey (ascii "a") (some [7])).2

/-- A store whose session holds the field U+FFFD with payload `[1]`. -/
def replacementStore : Store :=
  (RedisClient.Set 600 sessionStore exampleKey [0xEF, 0xBF, 0xBD] (some [1])).2

/-! ## Lemmas -/

/-! ### Runes -/

theorem byte_val (n : Nat) : (byte n).val = n % 256 := rfl

theorem byte_eq_of_val (n : Nat) (b : Byte) (h : n = b.val) : byte n = b := by
  apply Fin.ext
  rw [byte_val, h]
  exact Nat.mod_eq_of_lt b.isLt

theorem inRange_iff (b : Byte) (lo hi : Nat) :
    inRange b lo hi = true ↔ lo ≤ b.val ∧ b.val ≤ hi := by
  simp [inRange]

theorem decodeRune_two (b0 b1 : Byte) (t : GoString) (h0 : 0xC2 ≤ b0.val) (h0' : b0.val < 0xE0)
    (h1 : inRange b1 0x80 0xBF = true) :
    decodeRune (b0 :: b1 :: t) = (b0.val % 32 * 64 + b1.val % 64, 2) := by
  have e1 : ¬ b0.val < 0x80 := by omega
  have e2 : ¬ b0.val < 0xC2 := by omega
  simp only [decodeRune, e1, e2, h0', h1, if_true, if_false]

theorem encodeRune_two (b0 b1 : Byte) (h0 : 0xC2 ≤ b0.val) (h0' : b0.val < 0xE0)
    (h1 : inRange b1 0x80 0xBF = true) :
    encodeRune (b0.val % 32 * 64 + b1.val % 64) = [b0, b1] := by
  rw [inRange_iff] at h1
  have e1 : ¬ (b0.val % 32 * 64 + b1.val % 64) < 0x80 := by omega
  have e2 : (b0.val % 32 * 64 + b1.val % 64) < 0x800 := by omega
  simp only [encodeRune, e1, e2, if_true, if_false]
  congr 1
  · apply byte_eq_of_val; omega
  · congr 1; apply byte_eq_of_val; omega


theorem decodeRune_three (b0 b1 b2 : Byte) (t : GoString) (h0 : 0xE0 ≤ b0.val)
    (h0' : b0.val < 0xF0) (h1 : inRange b1 (acceptLo b0) (acceptHi b0) = true)
    (h2 : inRange b2 0x80 0xBF = true) :
    decodeRune (b0 :: b1 :: b2 :: t)
      = (b0.val % 16 * 4096 + b1.val % 64 * 64 + b2.val % 64, 3) := by
  have e1 : ¬ b0.val < 0x80 := by omega
  have e2 : ¬ b0.val < 0xC2 := by omega
  have e3 : ¬ b0.val < 0xE0 := by omega
  simp only [decodeRune, e1, e2, e3, h0', h1, h2, if_true, if_false, Bool.and_self]

theorem accept_bounds (b0 b1 : Byte) (h1 : inRange b1 (acceptLo b0) (acceptHi b0) = true) :
    0x80 ≤ b1.val ∧ b1.val ≤ 0xBF ∧ (b0.val = 0xE0 → 0xA0 ≤ b1.val)
      ∧ (b0.val = 0xED → b1.val ≤ 0x9F) ∧ (b0.val = 0xF0 → 0x90 ≤ b1.val)
      ∧ (b0.val = 0xF4 → b1.val ≤ 0x8F) := by
  rw [inRange_iff] at h1
  unfold acceptLo acceptHi at h1
  split_ifs at h1 <;> omega

theorem encodeRune_three (b0 b1 b2 : Byte) (h0 : 0xE0 ≤ b0.val)
    (h0' : b0.val < 0xF0) (h1 : inRange b1 (acceptLo b0) (acceptHi b0) = true)
    (h2 : inRange b2 0x80 0xBF = true) :
    encodeRune (b0.val % 16 * 4096 + b1.val % 64 * 64 + b2.val % 64) = [b0, b1, b2] := by
  have hb := accept_bounds b0 b1 h1
  rw [inRange_iff] at h2
  have e1 : ¬ (b0.val % 16 * 4096 + b1.val % 64 * 64 + b2.val % 64) < 0x80 := by omega
  have e2 : ¬ (b0.val % 16 * 4096 + b1.val % 64 * 64 + b2.val % 64) < 0x800 := by omega
  have e3 : ¬ (0x10FFFF < (b0.val % 16 * 4096 + b1.val % 64 * 64 + b2.val % 64)
      ∨ (0xD800 ≤ (b0.val % 16 * 4096 + b1.val % 64 * 64 + b2.val % 64)
        ∧ (b0.val % 16 * 4096 + b1.val % 64 * 64 + b2.val % 64) ≤ 0xDFFF)) := by omega
  have e4 : (b0.val % 16 * 4096 + b1.val % 64 * 64 + b2.val % 64) < 0x10000 := by omega
  simp only [encodeRune, e1, e2, e3, e4, if_true, if_false]
  congr 1
  · apply byte_eq_of_val; omega
  · congr 1
    · apply byte_eq_of_val; omega
    · congr 1; apply byte_eq_of_val; omega

theorem decodeRune_four (b0 b1 b2 b3 : Byte) (t : GoString) (h0 : 0xF0 ≤ b0.val)
    (h0' : b0.val < 0xF5) (h1 : inRange b1 (acceptLo b0) (acceptHi b0) = true)
    (h2 : inRange b2 0x80 0xBF = true) (h3 : inRange b3 0x80 0xBF = true) :
    decodeRune (b0 :: b1 :: b2 :: b3 :: t)
      = (b0.val % 8 * 262144 + b1.val % 64 * 4096 + b2.val % 64 * 64 + b3.val % 64, 4) := by
  have e1 : ¬ b0.val < 0x80 := by omega
  have e2 : ¬ b0.val < 0xC2 := by omega
  have e3 : ¬ b0.val < 0xE0 := by omega
  have e4 : ¬ b0.val < 0xF0 := by omega
  simp only [decodeRune, e1, e2, e3, e4, h0', h1, h2, h3, if_true, if_false, Bool.and_self]

theorem encodeRune_four (b0 b1 b2 b3 : Byte) (h0 : 0xF0 ≤ b0.val)
    (h0' : b0.val < 0xF5) (h1 : inRange b1 (acceptLo b0) (acceptHi b0) = true)
    (h2 : inRange b2 0x80 0xBF = true) (h3 : inRange b3 0x80 0xBF = true) :
    encodeRune (b0.val % 8 * 262144 + b1.val % 64 * 4096 + b2.val % 64 * 64 + b3.val % 64)
      = [b0, b1, b2, b3] := by
  have hb := accept_bounds b0 b1 h1
  rw [inRange_iff] at h2 h3
  have e1 : ¬ (b0.val % 8 * 262144 + b1.val % 64 * 4096 + b2.val % 64 * 64 + b3.val % 64)
      < 0x80 := by omega
  have e2 : ¬ (b0.val % 8 * 262144 + b1.val % 64 * 4096 + b2.val % 64 * 64 + b3.val % 64)
      < 0x800 := by omega
  have e3 : ¬ (0x10FFFF
        < (b0.val % 8 * 262144 + b1.val % 64 * 4096 + b2.val % 64 * 64 + b3.val % 64)
      ∨ (0xD800 ≤ (b0.val % 8 * 262144 + b1.val % 64 * 4096 + b2.val % 64 * 64 + b3.val % 64)
        ∧ (b0.val % 8 * 262144 + b1.val % 64 * 4096 + b2.val % 64 * 64 + b3.val % 64)
          ≤ 0xDFFF)) := by omega
  have e4 : ¬ (b0.val % 8 * 262144 + b1.val % 64 * 4096 + b2.val % 64 * 64 + b3.val % 64)
      < 0x10000 := by omega
  simp only [encodeRune, e1, e2, e3, e4, if_true, if_false]
  congr 1
  · apply byte_eq_of_val; omega
  · congr 1
    · apply byte_eq_of_val; omega
    · congr 1
      · apply byte_eq_of_val; omega
      · congr 1; apply byte_eq_of_val; omega

/-- The shapes of a decoded rune at a lead byte that is not ASCII. -/
theorem decodeRune_cases (b : Byte) (rest : GoString) (hb : 0x80 ≤ b.val) :
    decodeRune (b :: rest) = (RuneError, 1)
    ∨ (∃ b1 t, rest = b1 :: t ∧ 0xC2 ≤ b.val ∧ b.val < 0xE0
        ∧ inRange b1 0x80 0xBF = true)
    ∨ (∃ b1 b2 t, rest = b1 :: b2 :: t ∧ 0xE0 ≤ b.val ∧ b.val < 0xF0
        ∧ inRange b1 (acceptLo b) (acceptHi b) = true ∧ inRange b2 0x80 0xBF = true)
    ∨ (∃ b1 b2 b3 t, rest = b1 :: b2 :: b3 :: t ∧ 0xF0 ≤ b.val ∧ b.val < 0xF5
        ∧ inRange b1 (acceptLo b) (acceptHi b) = true ∧ inRange b2 0x80 0xBF = true
        ∧ inRange b3 0x80 0xBF = true) := by
  have e1 : ¬ b.val < 0x80 := by omega
  by_cases h2 : b.val < 0xC2
  · left; simp only [decodeRune, e1, h2, if_true, if_false]
  by_cases h3 : b.val < 0xE0
  · cases rest with
    | nil => left; simp only [decodeRune, e1, h2, h3, if_true, if_false]
    | cons b1 t =>
      by_cases c1 : inRange b1 0x80 0xBF = true
      · right; left; exact ⟨b1, t, rfl, by omega, h3, c1⟩
      · left; simp [decodeRune, e1, h2, h3, c1]
  by_cases h4 : b.val < 0xF0
  · match rest with
    | [] => left; simp only [decodeRune, e1, h2, h3, h4, if_true, if_false]
    | [_] => left; simp only [decodeRune, e1, h2, h3, h4, if_true, if_false]
    | b1 :: b2 :: t =>
      by_cases c1 : (inRange b1 (acceptLo b) (acceptHi b) && inRange b2 0x80 0xBF) = true
      · right; right; left
        rw [Bool.and_eq_true] at c1
        exact ⟨b1, b2, t, rfl, by omega, h4, c1.1, c1.2⟩
      · left; simp [decodeRune, e1, h2, h3, h4, c1]
  by_cases h5 : b.val < 0xF5
  · match rest with
    | [] => left; simp only [decodeRune, e1, h2, h3, h4, h5, if_true, if_false]
    | [_] => left; simp only [decodeRune, e1, h2, h3, h4, h5, if_true, if_false]
    | [_, _] => left; simp only [decodeRune, e1, h2, h3, h4, h5, if_true, if_false]
    | b1 :: b2 :: b3 :: t =>
      by_cases c1 : (inRange b1 (acceptLo b) (acceptHi b) && inRange b2 0x80 0xBF
          && inRange b3 0x80 0xBF) = true
      · right; right; right
        rw [Bool.and_eq_true, Bool.and_eq_true] at c1
        exact ⟨b1, b2, b3, t, rfl, by omega, h5, c1.1.1, c1.1.2, c1.2⟩
      · left; simp [decodeRune, e1, h2, h3, h4, h5, c1]
  · left; simp only [decodeRune, e1, h2, h3, h4, h5, if_true, if_false]

/-! ### Passing the bytes of a step -/

theorem validAux_skip (n : Nat) (l : GoString) : validAux n l = validAux 0 (l.drop n) := by
  induction l generalizing n with
  | nil => simp [validAux]
  | cons a t ih =>
    cases n with
    | zero => rfl
    | succ m => simp only [validAux, List.drop_succ_cons]; exact ih m

theorem appendStringAux_skip (n : Nat) (l : GoString) :
    appendStringAux n l = appendStringAux 0 (l.drop n) := by
  induction l generalizing n with
  | nil => simp [appendStringAux]
  | cons a t ih =>
    cases n with
    | zero => rfl
    | succ m => simp only [appendStringAux, List.drop_succ_cons]; exact ih m

theorem unquoteAux_skip (n : Nat) (l : GoString) :
    unquoteAux n l = unquoteAux 0 (l.drop n) := by
  induction l generalizing n with
  | nil => simp [unquoteAux]
  | cons a t ih =>
    cases n with
    | zero => rfl
    | succ m => simp only [unquoteAux, List.drop_succ_cons]; exact ih m

theorem validAux_cons (b : Byte) (rest : GoString) :
    validAux 0 (b :: rest)
      = if (decodeRune (b :: rest)).1 = RuneError ∧ (decodeRune (b :: rest)).2 = 1 then false
        else validAux 0 (rest.drop ((decodeRune (b :: rest)).2 - 1)) := by
  rw [← validAux_skip]; rfl

theorem appendStringAux_cons (b : Byte) (rest : GoString) :
    appendStringAux 0 (b :: rest)
      = (appendStringStep (b :: rest)).1
        ++ appendStringAux 0 (rest.drop ((appendStringStep (b :: rest)).2 - 1)) := by
  rw [← appendStringAux_skip]; rfl

theorem unquoteAux_emit (c : Byte) (rest out : GoString) (size : Nat)
    (h : unquoteStep (c :: rest) = .emit out size) :
    unquoteAux 0 (c :: rest) = emitted out (unquoteAux 0 (rest.drop (size - 1))) := by
  rw [← unquoteAux_skip]
  simp only [unquoteAux, h, emitted]

/-! ### Single steps of the string decoder -/

theorem unquoteAux_close (tail : GoString) : unquoteAux 0 (0x22 :: tail) = some ([], tail) := by
  simp [unquoteAux, unquoteStep]

theorem unquoteAux_plain (c : Byte) (X : GoString) (h : plainByte c = true) :
    unquoteAux 0 (c :: X) = emitted [c] (unquoteAux 0 X) := by
  simp only [plainByte, Bool.and_eq_true, decide_eq_true_eq, Bool.not_eq_true',
    Bool.or_eq_false_iff, decide_eq_false_iff_not] at h
  obtain ⟨⟨h1, h2⟩, h3, h4⟩ := h
  have e : unquoteStep (c :: X) = .emit [c] 1 := by
    have : ¬ c.val < 0x20 := by omega
    simp only [unquoteStep, h3, h4, this, h2, if_true, if_false]
  rw [unquoteAux_emit c X [c] 1 e]
  rfl

theorem unquoteAux_escape2 (e : Byte) (X : GoString) (h : e = 0x22 ∨ e = 0x5C) :
    unquoteAux 0 (0x5C :: e :: X) = emitted [e] (unquoteAux 0 X) := by
  have e1 : unquoteStep (0x5C :: e :: X) = .emit [e] 2 := by
    rcases h with h | h <;> subst h <;> simp [unquoteStep]
  rw [unquoteAux_emit _ _ _ _ e1]
  rfl

theorem hexVal_hexDigit (n : Nat) (h : n < 16) : hexVal (hexDigit n) = some n := by
  unfold hexDigit hexVal
  split_ifs with h1 <;> simp only [byte_val] at * <;> first | omega | (congr 1; omega)

theorem unquoteAux_u4 (h1 h2 h3 h4 : Byte) (X : GoString) (rr : Nat)
    (hg : getu4 (0x5C :: 0x75 :: h1 :: h2 :: h3 :: h4 :: X) = some rr)
    (hs : ¬ (0xD800 ≤ rr ∧ rr < 0xE000)) :
    unquoteAux 0 (0x5C :: 0x75 :: h1 :: h2 :: h3 :: h4 :: X)
      = emitted (encodeRune rr) (unquoteAux 0 X) := by
  have e1 : unquoteStep (0x5C :: 0x75 :: h1 :: h2 :: h3 :: h4 :: X) = .emit (encodeRune rr) 6 := by
    simp [unquoteStep, hg, hs]
  rw [unquoteAux_emit _ _ _ _ e1]
  rfl

theorem getu4_hex (a b c d : Nat) (X : GoString) (ha : a < 16) (hb : b < 16) (hc : c < 16)
    (hd : d < 16) :
    getu4 (0x5C :: 0x75 :: hexDigit a :: hexDigit b :: hexDigit c :: hexDigit d :: X)
      = some (((a * 16 + b) * 16 + c) * 16 + d) := by
  simp [getu4, hexVal_hexDigit, ha, hb, hc, hd]

theorem unquoteAux_rune (b : Byte) (rest : GoString) (hb : 0x80 ≤ b.val) :
    unquoteAux 0 (b :: rest)
      = emitted (encodeRune (decodeRune (b :: rest)).1)
          (unquoteAux 0 (rest.drop ((decodeRune (b :: rest)).2 - 1))) := by
  have e : unquoteStep (b :: rest)
      = .emit (encodeRune (decodeRune (b :: rest)).1) (decodeRune (b :: rest)).2 := by
    have h1 : ¬ b = 0x22 := by intro h; subst h; exact absurd hb (by decide)
    have h2 : ¬ b = 0x5C := by intro h; subst h; exact absurd hb (by decide)
    have h3 : ¬ b.val < 0x20 := by omega
    have h4 : ¬ b.val < 0x80 := by omega
    simp only [unquoteStep, h1, h2, h3, h4, if_false]
  rw [unquoteAux_emit _ _ _ _ e]

/-! ### The string encoder followed by the string decoder -/

theorem encodeRune_ascii (b : Byte) (hb : b.val < 0x80) : encodeRune b.val = [b] := by
  simp only [encodeRune, hb, if_true]
  congr 1
  exact byte_eq_of_val _ _ rfl

theorem appendStringStep_ascii (b : Byte) (rest X : GoString) (hb : b.val < 0x80) :
    (appendStringStep (b :: rest)).2 = 1
    ∧ unquoteAux 0 ((appendStringStep (b :: rest)).1 ++ X) = emitted [b] (unquoteAux 0 X) := by
  simp only [appendStringStep, hb, if_true]
  by_cases hs : htmlSafe b = true
  · simp only [hs, if_true, List.singleton_append, true_and]
    apply unquoteAux_plain
    simp only [htmlSafe, Bool.and_eq_true, decide_eq_true_eq, Bool.not_eq_true',
      Bool.or_eq_false_iff, decide_eq_false_iff_not] at hs
    simp only [plainByte, Bool.and_eq_true, decide_eq_true_eq, Bool.not_eq_true',
      Bool.or_eq_false_iff, decide_eq_false_iff_not]
    exact ⟨⟨hs.1, hb⟩, hs.2.1.1.1.1, hs.2.2⟩
  · simp only [hs, if_false, Bool.false_eq_true]
    by_cases h1 : b = 0x5C ∨ b = 0x22
    · simp only [h1, if_true, true_and]
      exact unquoteAux_escape2 b X (by tauto)
    simp only [h1, if_false]
    by_cases h2 : b = 0x08
    · subst h2; simp [unquoteAux, unquoteStep, emitted]
    simp only [h2, if_false]
    by_cases h3 : b = 0x0C
    · subst h3; simp [unquoteAux, unquoteStep, emitted]
    simp only [h3, if_false]
    by_cases h4 : b = 0x0A
    · subst h4; simp [unquoteAux, unquoteStep, emitted]
    simp only [h4, if_false]
    by_cases h5 : b = 0x0D
    · subst h5; simp [unquoteAux, unquoteStep, emitted]
    simp only [h5, if_false]
    by_cases h6 : b = 0x09
    · subst h6; simp [unquoteAux, unquoteStep, emitted]
    simp only [h6, if_false, true_and]
    have hg := getu4_hex 0 0 (b.val / 16) (b.val % 16) X (by omega) (by omega) (by omega) (by omega)
    have e0 : hexDigit 0 = 0x30 := by decide
    rw [e0] at hg
    have hv : ((0 * 16 + 0) * 16 + b.val / 16) * 16 + b.val % 16 = b.val := by omega
    rw [hv] at hg
    have := unquoteAux_u4 _ _ _ _ X _ hg (by omega)
    rw [encodeRune_ascii b hb] at this
    exact this

theorem appendStringStep_high (b : Byte) (rest : GoString) (hb : 0x80 ≤ b.val) :
    appendStringStep (b :: rest)
      = if (decodeRune (b :: rest)).1 = RuneError ∧ (decodeRune (b :: rest)).2 = 1 then
          ([0x5C, 0x75, 0x66, 0x66, 0x66, 0x64], 1)
        else if (decodeRune (b :: rest)).1 = 0x2028 ∨ (decodeRune (b :: rest)).1 = 0x2029 then
          ([0x5C, 0x75, 0x32, 0x30, 0x32, hexDigit ((decodeRune (b :: rest)).1 % 16)],
            (decodeRune (b :: rest)).2)
        else ((b :: rest).take (decodeRune (b :: rest)).2, (decodeRune (b :: rest)).2) := by
  have h : ¬ b.val < 0x80 := by omega
  simp only [appendStringStep, h, if_false]

/-- At a valid rune, the encoder consumes the rune's bytes, and the decoder
reads them back from what the encoder wrote. -/
theorem appendStringStep_valid (b : Byte) (rest : GoString)
    (hv : ¬ ((decodeRune (b :: rest)).1 = RuneError ∧ (decodeRune (b :: rest)).2 = 1)) :
    (appendStringStep (b :: rest)).2 = (decodeRune (b :: rest)).2
    ∧ 1 ≤ (decodeRune (b :: rest)).2
    ∧ (b :: rest).take (decodeRune (b :: rest)).2 ++ rest.drop ((decodeRune (b :: rest)).2 - 1)
        = b :: rest
    ∧ ∀ X, unquoteAux 0 ((appendStringStep (b :: rest)).1 ++ X)
        = emitted ((b :: rest).take (decodeRune (b :: rest)).2) (unquoteAux 0 X) := by
  by_cases hb : b.val < 0x80
  · have hd : decodeRune (b :: rest) = (b.val, 1) := by simp only [decodeRune, hb, if_true]
    rw [hd]
    refine ⟨(appendStringStep_ascii b rest [] hb).1, le_refl _, by simp, fun X => ?_⟩
    exact (appendStringStep_ascii b rest X hb).2
  have hb' : 0x80 ≤ b.val := by omega
  rw [appendStringStep_high b rest hb']
  rcases decodeRune_cases b rest hb' with h | ⟨b1, t, rfl, h0, h0', h1⟩
      | ⟨b1, b2, t, rfl, h0, h0', h1, h2⟩ | ⟨b1, b2, b3, t, rfl, h0, h0', h1, h2, h3⟩
  · rw [h] at hv; exact absurd ⟨rfl, rfl⟩ hv
  · have hd := decodeRune_two b b1 t h0 h0' h1
    have he := encodeRune_two b b1 h0 h0' h1
    rw [hd]
    have n1 : ¬ (b.val % 32 * 64 + b1.val % 64 = RuneError ∧ 2 = 1) := by omega
    have n2 : ¬ (b.val % 32 * 64 + b1.val % 64 = 0x2028
        ∨ b.val % 32 * 64 + b1.val % 64 = 0x2029) := by
      omega
    simp only [n1, n2, if_false]
    refine ⟨trivial, by omega, by simp, fun X => ?_⟩
    have := unquoteAux_rune b (b1 :: X) hb'
    rw [decodeRune_two b b1 X h0 h0' h1, he] at this
    simpa using this
  · have hd := decodeRune_three b b1 b2 t h0 h0' h1 h2
    have he := encodeRune_three b b1 b2 h0 h0' h1 h2
    rw [hd]
    have n1 : ¬ (b.val % 16 * 4096 + b1.val % 64 * 64 + b2.val % 64 = RuneError ∧ 3 = 1) := by
      omega
    simp only [n1, if_false]
    refine ⟨by split_ifs <;> rfl, by omega, by simp, fun X => ?_⟩
    split_ifs with h28
    · have hg := getu4_hex 2 0 2 ((b.val % 16 * 4096 + b1.val % 64 * 64 + b2.val % 64) % 16) X
        (by omega) (by omega) (by omega) (by omega)
      have e0 : hexDigit 0 = 0x30 := by decide
      have e2 : hexDigit 2 = 0x32 := by decide
      rw [e0, e2] at hg
      have hval : ((2 * 16 + 0) * 16 + 2) * 16
          + (b.val % 16 * 4096 + b1.val % 64 * 64 + b2.val % 64) % 16
          = b.val % 16 * 4096 + b1.val % 64 * 64 + b2.val % 64 := by omega
      rw [hval] at hg
      have := unquoteAux_u4 _ _ _ _ X _ hg (by omega)
      rw [he] at this
      simpa using this
    · have := unquoteAux_rune b (b1 :: b2 :: X) hb'
      rw [decodeRune_three b b1 b2 X h0 h0' h1 h2, he] at this
      simpa using this
  · have hd := decodeRune_four b b1 b2 b3 t h0 h0' h1 h2 h3
    have he := encodeRune_four b b1 b2 b3 h0 h0' h1 h2 h3
    have hbd := accept_bounds b b1 h1
    rw [hd]
    have n1 : ¬ (b.val % 8 * 262144 + b1.val % 64 * 4096 + b2.val % 64 * 64 + b3.val % 64
        = RuneError ∧ 4 = 1) := by omega
    have n2 : ¬ (b.val % 8 * 262144 + b1.val % 64 * 4096 + b2.val % 64 * 64 + b3.val % 64 = 0x2028
        ∨ b.val % 8 * 262144 + b1.val % 64 * 4096 + b2.val % 64 * 64 + b3.val % 64 = 0x2029) := by
      omega
    simp only [n1, n2, if_false]
    refine ⟨trivial, by omega, by simp, fun X => ?_⟩
    have := unquoteAux_rune b (b1 :: b2 :: b3 :: X) hb'
    rw [decodeRune_four b b1 b2 b3 X h0 h0' h1 h2 h3, he] at this
    simpa using this

/-- A valid UTF-8 string is read back unchanged from its JSON string literal. -/
theorem unquoteAux_appendStringAux (n : Nat) :
    ∀ (k tail : GoString), k.length ≤ n → utf8Valid k = true →
      unquoteAux 0 (appendStringAux 0 k ++ 0x22 :: tail) = some (k, tail) := by
  induction n with
  | zero =>
    intro k tail hl _
    have : k = [] := List.eq_nil_of_length_eq_zero (by omega)
    subst this
    simp [appendStringAux, unquoteAux_close]
  | succ n ih =>
    intro k tail hl hv
    cases k with
    | nil => simp [appendStringAux, unquoteAux_close]
    | cons b rest =>
      unfold utf8Valid at hv
      rw [validAux_cons] at hv
      by_cases hd : (decodeRune (b :: rest)).1 = RuneError ∧ (decodeRune (b :: rest)).2 = 1
      · simp [hd] at hv
      · simp only [hd, if_false] at hv
        obtain ⟨h2, h1, hsplit, hX⟩ := appendStringStep_valid b rest hd
        rw [appendStringAux_cons, h2, List.append_assoc, hX]
        have hlen : (rest.drop ((decodeRune (b :: rest)).2 - 1)).length ≤ n := by
          simp only [List.length_drop, List.length_cons] at hl ⊢
          omega
        rw [ih _ tail hlen hv]
        simp only [emitted, Option.map_some']
        rw [hsplit]

theorem parseString_appendString (k tail : GoString) (hv : utf8Valid k = true) :
    parseString (appendString k ++ tail) = some (k, tail) := by
  simp only [appendString, parseString, List.cons_append, if_true, List.append_assoc,
    List.singleton_append]
  exact unquoteAux_appendStringAux k.length k tail (le_refl _) hv

/-! ### The string decoder returns valid UTF-8 -/

theorem validAux_ascii (b : Byte) (t : GoString) (hb : b.val < 0x80) :
    validAux 0 (b :: t) = validAux 0 t := by
  have hd : decodeRune (b :: t) = (b.val, 1) := by simp only [decodeRune, hb, if_true]
  rw [validAux_cons, hd]
  have : ¬ ((b.val, 1).1 = RuneError ∧ (b.val, 1).2 = 1) := by
    unfold RuneError; simp only; omega
  rw [if_neg this]
  rfl

theorem validAux_encodeRune (r : Nat) (t : GoString) :
    validAux 0 (encodeRune r ++ t) = validAux 0 t := by
  unfold encodeRune
  by_cases h1 : r < 0x80
  · simp only [h1, if_true, List.singleton_append]
    exact validAux_ascii _ _ (by rw [byte_val]; omega)
  simp only [h1, if_false]
  by_cases h2 : r < 0x800
  · simp only [h2, if_true, List.cons_append, List.nil_append]
    have hd := decodeRune_two (byte (0xC0 + r / 64)) (byte (0x80 + r % 64)) t
      (by rw [byte_val]; omega) (by rw [byte_val]; omega)
      (by rw [inRange_iff, byte_val]; omega)
    rw [validAux_cons, hd]
    simp
  simp only [h2, if_false]
  by_cases h3 : 0x10FFFF < r ∨ (0xD800 ≤ r ∧ r ≤ 0xDFFF)
  · simp only [h3, if_true, List.cons_append, List.nil_append]
    have hd := decodeRune_three 0xEF 0xBF 0xBD t (by decide) (by decide) (by decide) (by decide)
    rw [validAux_cons, hd]
    simp
  simp only [h3, if_false]
  by_cases h4 : r < 0x10000
  · simp only [h4, if_true, List.cons_append, List.nil_append]
    have hd := decodeRune_three (byte (0xE0 + r / 4096)) (byte (0x80 + r / 64 % 64))
      (byte (0x80 + r % 64)) t (by rw [byte_val]; omega) (by rw [byte_val]; omega)
      (by
        rw [inRange_iff]; unfold acceptLo acceptHi
        simp only [byte_val]
        split_ifs <;> omega)
      (by rw [inRange_iff, byte_val]; omega)
    rw [validAux_cons, hd]
    simp
  · simp only [h4, if_false, List.cons_append, List.nil_append]
    have hd := decodeRune_four (byte (0xF0 + r / 262144)) (byte (0x80 + r / 4096 % 64))
      (byte (0x80 + r / 64 % 64)) (byte (0x80 + r % 64)) t
      (by rw [byte_val]; omega) (by rw [byte_val]; omega)
      (by
        rw [inRange_iff]; unfold acceptLo acceptHi
        simp only [byte_val]
        split_ifs <;> omega)
      (by rw [inRange_iff, byte_val]; omega) (by rw [inRange_iff, byte_val]; omega)
    rw [validAux_cons, hd]
    simp

theorem unquoteStep_emit_valid (s out : GoString) (size : Nat)
    (h : unquoteStep s = .emit out size) (t : GoString) :
    validAux 0 (out ++ t) = validAux 0 t := by
  cases s with
  | nil => simp [unquoteStep] at h
  | cons c rest =>
    simp only [unquoteStep] at h
    by_cases h1 : c = 0x22
    · rw [if_pos h1] at h; cases h
    rw [if_neg h1] at h
    by_cases h2 : c = 0x5C
    · rw [if_pos h2] at h
      cases rest with
      | nil => cases h
      | cons e rest1 =>
        simp only at h
        by_cases g1 : e = 0x22 ∨ e = 0x5C ∨ e = 0x2F
        · rw [if_pos g1] at h; cases h
          rcases g1 with g | g | g <;> subst g <;> exact validAux_ascii _ _ (by decide)
        rw [if_neg g1] at h
        by_cases g2 : e = 0x62
        · rw [if_pos g2] at h; cases h; exact validAux_ascii _ _ (by decide)
        rw [if_neg g2] at h
        by_cases g3 : e = 0x66
        · rw [if_pos g3] at h; cases h; exact validAux_ascii _ _ (by decide)
        rw [if_neg g3] at h
        by_cases g4 : e = 0x6E
        · rw [if_pos g4] at h; cases h; exact validAux_ascii _ _ (by decide)
        rw [if_neg g4] at h
        by_cases g5 : e = 0x72
        · rw [if_pos g5] at h; cases h; exact validAux_ascii _ _ (by decide)
        rw [if_neg g5] at h
        by_cases g6 : e = 0x74
        · rw [if_pos g6] at h; cases h; exact validAux_ascii _ _ (by decide)
        rw [if_neg g6] at h
        by_cases g7 : e = 0x75
        · rw [if_pos g7] at h
          cases hg : getu4 (c :: e :: rest1) with
          | none => rw [hg] at h; cases h
          | some rr =>
            rw [hg] at h
            simp only at h
            by_cases hs : 0xD800 ≤ rr ∧ rr < 0xE000
            · rw [if_pos hs] at h
              cases hg1 : getu4 (List.drop 5 (e :: rest1)) with
              | none => rw [hg1] at h; cases h; exact validAux_encodeRune _ _
              | some rr1 =>
                rw [hg1] at h
                simp only at h
                by_cases hp : rr < 0xDC00 ∧ 0xDC00 ≤ rr1 ∧ rr1 < 0xE000
                · rw [if_pos hp] at h; rw [← (UStep.emit.inj h).1]; exact validAux_encodeRune _ _
                · rw [if_neg hp] at h; cases h; exact validAux_encodeRune _ _
            · rw [if_neg hs] at h; cases h; exact validAux_encodeRune _ _
        · rw [if_neg g7] at h; cases h
    rw [if_neg h2] at h
    by_cases h3 : c.val < 0x20
    · rw [if_pos h3] at h; cases h
    rw [if_neg h3] at h
    by_cases h4 : c.val < 0x80
    · rw [if_pos h4] at h; cases h; exact validAux_ascii _ _ h4
    · rw [if_neg h4] at h; cases h; exact validAux_encodeRune _ _

theorem unquoteAux_valid (l : GoString) :
    ∀ (n : Nat) (out rest : GoString), unquoteAux n l = some (out, rest) →
      utf8Valid out = true := by
  induction l with
  | nil => intro n out rest h; simp [unquoteAux] at h
  | cons c t ih =>
    intro n out rest h
    cases n with
    | succ m => simp only [unquoteAux] at h; exact ih m out rest h
    | zero =>
      simp only [unquoteAux] at h
      split at h
      · cases h; rfl
      · cases h
      · rename_i o size hs
        cases hr : unquoteAux (size - 1) t with
        | none => simp [hr] at h
        | some p =>
          obtain ⟨o1, r1⟩ := p
          simp only [hr, Option.map_some', Option.some.injEq, Prod.mk.injEq] at h
          obtain ⟨h1, _⟩ := h
          subst h1
          unfold utf8Valid
          rw [unquoteStep_emit_valid _ _ _ hs]
          exact ih _ _ _ hr

theorem parseString_valid (s k rest : GoString) (h : parseString s = some (k, rest)) :
    utf8Valid k = true := by
  cases s with
  | nil => simp [parseString] at h
  | cons c t =>
    simp only [parseString] at h
    split_ifs at h
    exact unquoteAux_valid _ _ _ _ h

/-! ### Base64 -/

theorem b64Val_b64Char (n : Nat) (h : n < 64) : b64Val (b64Char n) = some n := by
  unfold b64Char
  split_ifs with h1 h2 h3 h4
  · unfold b64Val; simp only [byte_val]
    rw [if_pos (by omega)]; congr 1; omega
  · unfold b64Val; simp only [byte_val]
    rw [if_neg (by omega), if_pos (by omega)]; congr 1; omega
  · unfold b64Val; simp only [byte_val]
    rw [if_neg (by omega), if_neg (by omega), if_pos (by omega)]; congr 1; omega
  · subst h4; decide
  · have : n = 63 := by omega
    subst this; decide

theorem b64Char_plain (n : Nat) : plainByte (b64Char n) = true := by
  have key : 0x20 ≤ (b64Char n).val ∧ (b64Char n).val < 0x80 ∧ (b64Char n).val ≠ 0x22
      ∧ (b64Char n).val ≠ 0x5C := by
    unfold b64Char
    split_ifs <;> first | (simp only [byte_val]; omega) | decide
  simp only [plainByte, Bool.and_eq_true, decide_eq_true_eq, Bool.not_eq_true',
    Bool.or_eq_false_iff, decide_eq_false_iff_not]
  refine ⟨⟨key.1, key.2.1⟩, ?_, ?_⟩
  · intro h; rw [h] at key; exact key.2.2.1 rfl
  · intro h; rw [h] at key; exact key.2.2.2 rfl

theorem b64Encode_plain : ∀ (bs : GoString), ∀ c ∈ b64Encode bs, plainByte c = true
  | [] => by intro c hc; simp [b64Encode] at hc
  | [a] => by
    intro c hc
    simp only [b64Encode, List.mem_cons, List.mem_singleton, List.not_mem_nil, or_false] at hc
    rcases hc with h | h | h | h <;> subst h <;> first | exact b64Char_plain _ | decide
  | [a, b] => by
    intro c hc
    simp only [b64Encode, List.mem_cons, List.mem_singleton, List.not_mem_nil, or_false] at hc
    rcases hc with h | h | h | h <;> subst h <;> first | exact b64Char_plain _ | decide
  | a :: b :: c' :: rest => by
    intro c hc
    simp only [b64Encode, List.mem_cons] at hc
    rcases hc with h | h | h | h | h
    · subst h; exact b64Char_plain _
    · subst h; exact b64Char_plain _
    · subst h; exact b64Char_plain _
    · subst h; exact b64Char_plain _
    · exact b64Encode_plain rest c h

theorem b64DecodeQuanta_b64Encode : ∀ (bs : GoString), b64DecodeQuanta (b64Encode bs) = some bs
  | [] => rfl
  | [a] => by
    have h0 := b64Val_b64Char (a.val / 4) (by omega)
    have h1 := b64Val_b64Char (a.val % 4 * 16) (by omega)
    have hp : b64Val 61 = none := by decide
    simp only [b64Encode, b64DecodeQuanta, h0, h1, hp, and_self, if_true]
    congr 2
    apply byte_eq_of_val; omega
  | [a, b] => by
    have h0 := b64Val_b64Char (a.val / 4) (by omega)
    have h1 := b64Val_b64Char (a.val % 4 * 16 + b.val / 16) (by omega)
    have h2 := b64Val_b64Char (b.val % 16 * 4) (by omega)
    have hp : b64Val 61 = none := by decide
    simp only [b64Encode, b64DecodeQuanta, h0, h1, h2, hp, and_self, if_true]
    congr 2
    · apply byte_eq_of_val; omega
    · congr 1; apply byte_eq_of_val; omega
  | a :: b :: c :: rest => by
    have h0 := b64Val_b64Char (a.val / 4) (by omega)
    have h1 := b64Val_b64Char (a.val % 4 * 16 + b.val / 16) (by omega)
    have h2 := b64Val_b64Char (b.val % 16 * 4 + c.val / 64) (by omega)
    have h3 := b64Val_b64Char (c.val % 64) (by omega)
    have ih := b64DecodeQuanta_b64Encode rest
    simp only [b64Encode, b64DecodeQuanta, h0, h1, h2, h3, ih, Option.map_some']
    congr 2
    · apply byte_eq_of_val; omega
    · congr 1
      · apply byte_eq_of_val; omega
      · congr 1; apply byte_eq_of_val; omega

theorem plainByte_not_newline (c : Byte) (h : plainByte c = true) :
    (!(c = 10 || c = 13)) = true := by
  simp only [plainByte, Bool.and_eq_true, decide_eq_true_eq] at h
  have h1 : c ≠ 10 := by intro e; subst e; exact absurd h.1.1 (by decide)
  have h2 : c ≠ 13 := by intro e; subst e; exact absurd h.1.1 (by decide)
  simp [h1, h2]

theorem b64Decode_b64Encode (bs : GoString) : b64Decode (b64Encode bs) = some bs := by
  unfold b64Decode
  rw [List.filter_eq_self.mpr]
  · exact b64DecodeQuanta_b64Encode bs
  · intro c hc
    exact plainByte_not_newline c (b64Encode_plain bs c hc)

/-! ### Values and members -/

theorem unquoteAux_plainList (s tail : GoString) (h : ∀ c ∈ s, plainByte c = true) :
    unquoteAux 0 (s ++ 0x22 :: tail) = some (s, tail) := by
  induction s with
  | nil => exact unquoteAux_close tail
  | cons c t ih =>
    rw [List.cons_append, unquoteAux_plain c _ (h c (List.mem_cons_self _ _)),
      ih (fun x hx => h x (List.mem_cons_of_mem _ hx))]
    rfl

theorem parseValue_encodeByteSlice (v : Payload) (tail : GoString) :
    parseValue (encodeByteSlice v ++ tail) = some (v, tail) := by
  cases v with
  | none => simp [encodeByteSlice, parseValue]
  | some bs =>
    simp only [encodeByteSlice, List.cons_append, List.append_assoc, List.singleton_append,
      parseValue, if_true]
    rw [unquoteAux_plainList _ _ (b64Encode_plain bs)]
    simp only [b64Decode_b64Encode, List.nil_append]

/-! ### Maps -/

theorem mapIndex_eq_none_iff (m : GoMap) (k : GoString) :
    mapIndex m k = none ↔ k ∉ mapKeys m := by
  induction m with
  | nil => simp [mapIndex, mapKeys]
  | cons e es ih =>
    unfold mapKeys at ih ⊢
    by_cases h : e.1 = k
    · simp [mapIndex, h]
    · have h' : ¬ k = e.1 := fun x => h x.symm
      simp [mapIndex, h, h', ih]

theorem mapIndex_mapDelete (m : GoMap) (k k' : GoString) :
    mapIndex (mapDelete m k) k' = if k' = k then none else mapIndex m k' := by
  induction m with
  | nil => simp [mapDelete, mapIndex]
  | cons e es ih =>
    unfold mapDelete at ih ⊢
    by_cases h : e.1 = k
    · simp only [List.filter_cons, h, decide_True, Bool.not_true, Bool.false_eq_true, if_false,
        ih, mapIndex]
      by_cases h2 : k' = k
      · simp [h2]
      · have : ¬ k = k' := fun x => h2 x.symm
        simp [h2, this]
    · simp only [List.filter_cons, h, decide_False, Bool.not_false, if_true, mapIndex, ih]
      by_cases h2 : k' = k
      · have : ¬ e.1 = k' := by rw [h2]; exact h
        simp [h2, this, h]
      · simp [h2]

theorem mapIndex_insertSorted (m : GoMap) (k k' : GoString) (v : Payload)
    (hk : k ∉ mapKeys m) :
    mapIndex (insertSorted k v m) k' = if k' = k then some v else mapIndex m k' := by
  induction m with
  | nil =>
    by_cases h : k' = k
    · simp [insertSorted, mapIndex, h]
    · have : ¬ k = k' := fun x => h x.symm
      simp [insertSorted, mapIndex, h, this]
  | cons e es ih =>
    have hk1 : ¬ e.1 = k := by
      intro h; apply hk; simp [mapKeys, ← h]
    have hk2 : k ∉ mapKeys es := by
      intro h; apply hk; simp only [mapKeys, List.map_cons, List.mem_cons]; right; exact h
    unfold insertSorted
    by_cases hl : strLt k e.1 = true
    · simp only [hl, if_true]
      by_cases h : k' = k
      · simp [mapIndex, h]
      · have : ¬ k = k' := fun x => h x.symm
        simp [mapIndex, h, this]
    · simp only [hl, if_false, Bool.false_eq_true, mapIndex, ih hk2]
      by_cases h : k' = k
      · subst h
        simp [hk1]
      · simp [h]

theorem not_mem_mapKeys_mapDelete (m : GoMap) (k : GoString) : k ∉ mapKeys (mapDelete m k) := by
  rw [← mapIndex_eq_none_iff, mapIndex_mapDelete]
  simp

theorem mapIndex_mapAssign (m : GoMap) (k k' : GoString) (v : Payload) :
    mapIndex (mapAssign m k v) k' = if k' = k then some v else mapIndex m k' := by
  unfold mapAssign
  rw [mapIndex_insertSorted _ _ _ _ (not_mem_mapKeys_mapDelete m k), mapIndex_mapDelete]
  by_cases h : k' = k <;> simp [h]

theorem insertSorted_perm (m : GoMap) (k : GoString) (v : Payload) :
    List.Perm (insertSorted k v m) ((k, v) :: m) := by
  induction m with
  | nil => exact List.Perm.refl _
  | cons e es ih =>
    unfold insertSorted
    split_ifs
    · exact List.Perm.refl _
    · exact (List.Perm.cons e ih).trans (List.Perm.swap _ _ _)

theorem wellFormed_nil : WellFormed [] := by
  constructor
  · intro e he; cases he
  · exact List.nodup_nil

theorem wellFormed_mapDelete (m : GoMap) (k : GoString) (h : WellFormed m) :
    WellFormed (mapDelete m k) := by
  constructor
  · intro e he
    exact h.1 e (List.mem_of_mem_filter he)
  · exact List.Nodup.sublist (List.Sublist.map _ (List.filter_sublist _)) h.2

theorem wellFormed_mapAssign (m : GoMap) (k : GoString) (v : Payload) (h : WellFormed m)
    (hk : utf8Valid k = true) : WellFormed (mapAssign m k v) := by
  have hd := wellFormed_mapDelete m k h
  have hp := insertSorted_perm (mapDelete m k) k v
  constructor
  · intro e he
    have := hp.mem_iff.mp he
    rcases List.mem_cons.mp this with h1 | h1
    · rw [h1]; exact hk
    · exact hd.1 e h1
  · have hp2 : List.Perm (mapKeys (mapAssign m k v)) (k :: mapKeys (mapDelete m k)) :=
      hp.map Prod.fst
    rw [hp2.nodup_iff]
    exact List.nodup_cons.mpr ⟨not_mem_mapKeys_mapDelete m k, hd.2⟩

theorem mapIndex_assignAll (es : GoMap) (hn : (mapKeys es).Nodup) (acc : GoMap)
    (k : GoString) :
    mapIndex (assignAll acc es) k
      = match mapIndex es k with
        | some v => some v
        | none => mapIndex acc k := by
  induction es generalizing acc with
  | nil => simp [assignAll, mapIndex]
  | cons e es ih =>
    have hn' : (mapKeys es).Nodup := (List.nodup_cons.mp hn).2
    have he : e.1 ∉ mapKeys es := (List.nodup_cons.mp hn).1
    have := ih hn' (mapAssign acc e.1 e.2)
    unfold assignAll at this ⊢
    rw [List.foldl_cons, this, mapIndex_mapAssign]
    by_cases h : e.1 = k
    · subst h
      have hnone : mapIndex es e.1 = none := (mapIndex_eq_none_iff es e.1).mpr he
      simp [mapIndex, hnone]
    · have h' : ¬ k = e.1 := fun x => h x.symm
      simp only [mapIndex, h, h', if_false]

/-! ### `Unmarshal` after `Marshal` -/

theorem skipWs_cons (c : Byte) (r : GoString) (h : isSpace c = false) :
    skipWs (c :: r) = c :: r := by
  simp [skipWs, h]

theorem encodeByteSlice_head (v : Payload) (t : GoString) :
    skipWs (encodeByteSlice v ++ t) = encodeByteSlice v ++ t := by
  cases v with
  | none => exact skipWs_cons _ _ (by decide)
  | some bs => exact skipWs_cons _ _ (by decide)

theorem encodeMember_head (e : GoString × Payload) : ∃ X, encodeMember e = 0x22 :: X :=
  ⟨_, rfl⟩

theorem encodeMembers_head (e : GoString × Payload) (es : GoMap) :
    ∃ X, encodeMembers (e :: es) = 0x22 :: X := by
  cases es with
  | nil => exact ⟨_, rfl⟩
  | cons e' es' => exact ⟨_, rfl⟩

theorem encodeMembers_cons (e e' : GoString × Payload) (es : GoMap) :
    encodeMembers (e :: e' :: es) = encodeMember e ++ 0x2C :: encodeMembers (e' :: es) := rfl

/-- The member at the head of the input is read, up to the separator. -/
theorem parseMembers_member (fuel : Nat) (e : GoString × Payload) (sep : Byte) (rest : GoString)
    (acc : GoMap) (hs : isSpace sep = false) (hv : utf8Valid e.1 = true) :
    parseMembers (fuel + 1) (encodeMember e ++ sep :: rest) acc
      = if sep = 0x7D then some (mapAssign acc e.1 e.2, rest)
        else if sep = 0x2C then parseMembers fuel (skipWs rest) (mapAssign acc e.1 e.2)
        else none := by
  rw [parseMembers]
  unfold encodeMember
  rw [List.append_assoc, parseString_appendString _ _ hv]
  simp only [List.cons_append]
  rw [skipWs_cons _ _ (by decide)]
  simp only [if_true]
  rw [encodeByteSlice_head, parseValue_encodeByteSlice]
  simp only
  rw [skipWs_cons _ _ hs]

theorem parseMembers_encode (es : GoMap) :
    ∀ (e : GoString × Payload) (fuel : Nat) (acc : GoMap) (tail : GoString),
      es.length < fuel → (∀ x ∈ e :: es, utf8Valid x.1 = true) →
      parseMembers fuel (encodeMembers (e :: es) ++ 0x7D :: tail) acc
        = some (assignAll acc (e :: es), tail) := by
  induction es with
  | nil =>
    intro e fuel acc tail hf hv
    cases fuel with
    | zero => omega
    | succ n =>
      have : encodeMembers [e] = encodeMember e := rfl
      rw [this, parseMembers_member n e 0x7D tail acc (by decide)
        (hv e (List.mem_cons_self _ _))]
      simp [assignAll]
  | cons e' es ih =>
    intro e fuel acc tail hf hv
    cases fuel with
    | zero => omega
    | succ n =>
      rw [encodeMembers_cons, List.append_assoc, List.cons_append,
        parseMembers_member n e 0x2C _ acc (by decide) (hv e (List.mem_cons_self _ _))]
      have h1 : ¬ ((0x2C : Byte) = 0x7D) := by decide
      simp only [h1, if_false, if_true]
      obtain ⟨X, hX⟩ := encodeMembers_head e' es
      have hsk : skipWs (encodeMembers (e' :: es) ++ 0x7D :: tail)
          = encodeMembers (e' :: es) ++ 0x7D :: tail := by
        rw [hX]; exact skipWs_cons _ _ (by decide)
      rw [hsk, ih e' n _ tail (by simp only [List.length_cons] at hf; omega)
        (fun x hx => hv x (List.mem_cons_of_mem _ hx))]
      rfl

theorem length_le_encodeMembers (es : GoMap) : es.length ≤ (encodeMembers es).length := by
  induction es with
  | nil => simp
  | cons e es ih =>
    cases es with
    | nil =>
      obtain ⟨X, hX⟩ := encodeMember_head e
      have : encodeMembers [e] = encodeMember e := rfl
      rw [this, hX]; simp
    | cons e' es' =>
      rw [encodeMembers_cons]
      simp only [List.length_append, List.length_cons] at ih ⊢
      omega

theorem Unmarshal_encodeMembers (m : GoMap) (hv : ∀ e ∈ m, utf8Valid e.1 = true) :
    Unmarshal (0x7B :: (encodeMembers m ++ [0x7D])) = .object (assignAll [] m) := by
  cases m with
  | nil => decide
  | cons e es =>
    obtain ⟨X, hX⟩ := encodeMembers_head e es
    have hlen := length_le_encodeMembers (e :: es)
    have hp := parseMembers_encode es e (encodeMembers (e :: es) ++ [0x7D]).length [] []
      (by simp only [List.length_append, List.length_cons, List.length_nil] at hlen ⊢; omega) hv
    unfold Unmarshal
    rw [skipWs_cons _ _ (by decide)]
    simp only [if_true]
    rw [hX] at hp ⊢
    simp only [List.cons_append] at hp ⊢
    rw [skipWs_cons _ _ (by decide)]
    have h1 : ¬ ((0x22 : Byte) = 0x7D) := by decide
    simp only [h1, if_false]
    rw [hp]
    simp [skipWs]

theorem sortEntries_perm (m : GoMap) : List.Perm (sortEntries m) m := by
  induction m with
  | nil => exact List.Perm.refl _
  | cons e es ih =>
    unfold sortEntries
    exact (insertSorted_perm (sortEntries es) e.1 e.2).trans (List.Perm.cons _ ih)

theorem wellFormed_of_perm (m m' : GoMap) (hp : List.Perm m' m) (h : WellFormed m) :
    WellFormed m' := by
  constructor
  · intro e he
    exact h.1 e (hp.mem_iff.mp he)
  · have hk : List.Perm (mapKeys m') (mapKeys m) := hp.map Prod.fst
    exact hk.nodup_iff.mpr h.2

theorem mapIndex_eq_some_iff (m : GoMap) (hn : (mapKeys m).Nodup) (k : GoString)
    (v : Payload) : mapIndex m k = some v ↔ (k, v) ∈ m := by
  induction m with
  | nil => simp [mapIndex]
  | cons e es ih =>
    have hn' : (mapKeys es).Nodup := (List.nodup_cons.mp hn).2
    have he : e.1 ∉ mapKeys es := (List.nodup_cons.mp hn).1
    unfold mapIndex
    by_cases h : e.1 = k
    · rw [if_pos h]
      constructor
      · intro hv
        simp only [Option.some.injEq] at hv
        rw [← h, ← hv]
        exact List.mem_cons_self _ _
      · intro hm
        rcases List.mem_cons.mp hm with h1 | h1
        · rw [← h1]
        · exfalso
          apply he
          rw [h]
          exact List.mem_map_of_mem Prod.fst h1
    · rw [if_neg h, ih hn']
      constructor
      · intro hm; exact List.mem_cons_of_mem _ hm
      · intro hm
        rcases List.mem_cons.mp hm with h1 | h1
        · exfalso; apply h; rw [← h1]
        · exact h1

theorem mapIndex_of_perm (m m' : GoMap) (hp : List.Perm m' m) (hn : (mapKeys m).Nodup)
    (k : GoString) : mapIndex m' k = mapIndex m k := by
  have hn' : (mapKeys m').Nodup := ((hp.map Prod.fst).nodup_iff).mpr hn
  cases h : mapIndex m k with
  | some v =>
    rw [mapIndex_eq_some_iff m hn] at h
    rw [mapIndex_eq_some_iff m' hn']
    exact hp.mem_iff.mpr h
  | none =>
    rw [mapIndex_eq_none_iff] at h ⊢
    intro hk
    exact h ((hp.map Prod.fst).mem_iff.mp hk)

/-- `Unmarshal` of what `Marshal` wrote, for a map with valid UTF-8 keys: an
object with the members read in the order written. -/
theorem Unmarshal_Marshal (m : GoMap) (hv : ∀ e ∈ m, utf8Valid e.1 = true) :
    Unmarshal (Marshal m) = .object (assignAll [] (sortEntries m)) := by
  unfold Marshal
  exact Unmarshal_encodeMembers (sortEntries m)
    (fun e he => hv e ((sortEntries_perm m).mem_iff.mp he))

theorem mapIndex_Unmarshal_Marshal (m : GoMap) (h : WellFormed m) :
    ∃ m', Unmarshal (Marshal m) = .object m' ∧ ∀ k, mapIndex m' k = mapIndex m k := by
  have hs := wellFormed_of_perm m (sortEntries m) (sortEntries_perm m) h
  refine ⟨assignAll [] (sortEntries m), Unmarshal_Marshal m h.1, fun k => ?_⟩
  rw [mapIndex_assignAll (sortEntries m) hs.2 [] k,
    ← mapIndex_of_perm m _ (sortEntries_perm m) h.2 k]
  cases mapIndex (sortEntries m) k <;> rfl

/-! ### What `Unmarshal` returns is well formed -/

theorem parseMembers_wellFormed (fuel : Nat) :
    ∀ (input : GoString) (acc m : GoMap) (rest : GoString), WellFormed acc →
      parseMembers fuel input acc = some (m, rest) → WellFormed m := by
  induction fuel with
  | zero => intro input acc m rest _ h; simp [parseMembers] at h
  | succ n ih =>
    intro input acc m rest ha h
    unfold parseMembers at h
    cases hp : parseString input with
    | none => rw [hp] at h; cases h
    | some p =>
      obtain ⟨k, r0⟩ := p
      rw [hp] at h
      simp only at h
      have hk := parseString_valid _ _ _ hp
      cases hr0 : skipWs r0 with
      | nil => rw [hr0] at h; cases h
      | cons colon rest1 =>
        rw [hr0] at h
        simp only at h
        by_cases hc : colon = 0x3A
        · rw [if_pos hc] at h
          cases hpv : parseValue (skipWs rest1) with
          | none => rw [hpv] at h; cases h
          | some q =>
            obtain ⟨v, rest2⟩ := q
            rw [hpv] at h
            simp only at h
            cases hr2 : skipWs rest2 with
            | nil => rw [hr2] at h; cases h
            | cons sep rest3 =>
              rw [hr2] at h
              simp only at h
              have hw := wellFormed_mapAssign acc k v ha hk
              by_cases hs : sep = 0x7D
              · rw [if_pos hs] at h
                simp only [Option.some.injEq, Prod.mk.injEq] at h
                rw [← h.1]; exact hw
              · rw [if_neg hs] at h
                by_cases hs2 : sep = 0x2C
                · rw [if_pos hs2] at h
                  exact ih _ _ _ _ hw h
                · rw [if_neg hs2] at h; cases h
        · rw [if_neg hc] at h; cases h

theorem Unmarshal_wellFormed (data : GoString) (kv : GoMap)
    (h : Unmarshal data = .object kv) : WellFormed kv := by
  unfold Unmarshal at h
  cases h0 : skipWs data with
  | nil => rw [h0] at h; cases h
  | cons c rest =>
    rw [h0] at h
    simp only at h
    by_cases hc : c = 0x7B
    · rw [if_pos hc] at h
      cases h1 : skipWs rest with
      | nil => rw [h1] at h; cases h
      | cons c1 rest1 =>
        rw [h1] at h
        simp only at h
        by_cases hc1 : c1 = 0x7D
        · rw [if_pos hc1] at h
          split_ifs at h
          cases h
          exact wellFormed_nil
        · rw [if_neg hc1] at h
          cases hp : parseMembers (c1 :: rest1).length (c1 :: rest1) [] with
          | none => rw [hp] at h; cases h
          | some p =>
            obtain ⟨m, rest2⟩ := p
            rw [hp] at h
            simp only at h
            split_ifs at h
            cases h
            exact parseMembers_wellFormed _ _ _ _ _ wellFormed_nil hp
    · rw [if_neg hc] at h
      split at h
      · split_ifs at h
      · cases h

/-! ### The store -/

theorem lookup_set_self (st : Store) (key value : GoString) (px : Option Nat)
    (h : ∀ ms, px = some ms → 0 < ms) :
    (st.set key value px).lookup key = some ⟨value, px.map (fun ms => st.now + ms)⟩ := by
  cases px with
  | none => simp [Store.set, Store.lookup]
  | some ms =>
    have := h ms rfl
    simp only [Store.set, Store.lookup, Function.update_same, Option.map_some']
    rw [if_neg (by omega)]

theorem lookup_setKeepTTL_self (st : Store) (key value : GoString) :
    ((st.setKeepTTL key value).lookup key).map Entry.val = some value := by
  unfold Store.setKeepTTL
  cases h : st.lookup key with
  | none => simp [Store.lookup]
  | some e =>
    have hl := h
    unfold Store.lookup at h
    cases hd : st.data key with
    | none => rw [hd] at h; cases h
    | some e0 =>
      rw [hd] at h
      simp only at h
      cases he : e0.expireAt with
      | none =>
        rw [he] at h
        simp only [Option.some.injEq] at h
        subst h
        simp [Store.lookup, he]
      | some t =>
        rw [he] at h
        simp only at h
        by_cases ht : t ≤ st.now
        · rw [if_pos ht] at h; cases h
        · rw [if_neg ht] at h
          simp only [Option.some.injEq] at h
          subst h
          simp [Store.lookup, he, ht]

theorem formatMs_pos (dur : Int) (h : 0 < dur) : 0 < (formatMs dur).toNat := by
  unfold formatMs
  split_ifs with h1
  · decide
  · have h2 : (1000000 : Int) ≤ dur := by omega
    rw [Int.tdiv_eq_ediv (by omega) (by omega)]
    omega

theorem formatSec_pos (dur : Int) (h : 0 < dur) : 0 < (formatSec dur).toNat := by
  unfold formatSec
  split_ifs with h1
  · decide
  · have h2 : (1000000000 : Int) ≤ dur := by omega
    rw [Int.tdiv_eq_ediv (by omega) (by omega)]
    omega

/-- After `client.Set` the key is live and holds the value, whatever the
expiration. -/
theorem clientSet_get (st : Store) (key value : GoString) (expiration : Int) :
    (clientSet st key value expiration).get key = some value := by
  unfold clientSet Store.get
  split_ifs with h1 h2 h3
  · rw [lookup_set_self _ _ _ _ (by
      intro ms hms
      simp only [Option.some.injEq] at hms
      rw [← hms]; exact formatMs_pos _ h1)]
    rfl
  · rw [lookup_set_self _ _ _ _ (by
      intro ms hms
      simp only [Option.some.injEq] at hms
      have := formatSec_pos _ h1
      omega)]
    rfl
  · exact lookup_setKeepTTL_self st key value
  · rw [lookup_set_self _ _ _ _ (by intro ms hms; cases hms)]
    rfl

theorem lookup_elapse_none (st : Store) (key : GoString) (dt : Nat)
    (h : st.lookup key = none) : (st.elapse dt).lookup key = none := by
  unfold Store.lookup Store.elapse at *
  simp only at *
  cases hd : st.data key with
  | none => rfl
  | some e =>
    rw [hd] at h
    simp only at h ⊢
    cases he : e.expireAt with
    | none => rw [he] at h; cases h
    | some t =>
      rw [he] at h
      simp only at h ⊢
      by_cases ht : t ≤ st.now
      · rw [if_pos (by omega)]
      · rw [if_neg ht] at h; cases h

theorem get_eq_none_iff (st : Store) (key : GoString) :
    st.get key = none ↔ st.lookup key = none := by
  unfold Store.get
  cases st.lookup key <;> simp

theorem elapse_zero (st : Store) : st.elapse 0 = st := rfl

theorem expire_reply (st : Store) (key : GoString) (seconds : Int) :
    (st.expire key seconds).1 = (st.lookup key).isSome := by
  unfold Store.expire
  cases st.lookup key with
  | none => rfl
  | some e => simp only; split_ifs <;> rfl

theorem expire_absent (st : Store) (key : GoString) (seconds : Int)
    (h : st.lookup key = none) : st.expire key seconds = (false, st) := by
  unfold Store.expire
  rw [h]

/-! ### The retry loop -/

/-- An attempt that does not report a conflict ends the loop. -/
theorem retryLoop_of_not_conflict {σ : Type} (attempt : σ → Result Unit × σ) (n : Nat)
    (st : σ) (h : (attempt st).1 ≠ .err .TxFailedErr) :
    retryLoop attempt (n + 1) st = attempt st := by
  unfold retryLoop
  cases hr : attempt st with
  | mk r st1 =>
    rw [hr] at h
    cases r with
    | ok a => rfl
    | panic => rfl
    | err e =>
      cases e <;> first | rfl | exact absurd rfl h

/-- An attempt that reports a conflict is followed by the rest of the loop. -/
theorem retryLoop_of_conflict {σ : Type} (attempt : σ → Result Unit × σ) (n : Nat)
    (st : σ) (h : (attempt st).1 = .err .TxFailedErr) :
    retryLoop attempt (n + 1) st = retryLoop attempt n (attempt st).2 := by
  conv_lhs => unfold retryLoop
  cases hr : attempt st with
  | mk r st1 =>
    rw [hr] at h
    simp only at h
    subst h
    rfl

/-! ### The record of a session -/

theorem decodesTo_wellFormed (res : GoString) (kv : GoMap) (h : decodesTo res kv) :
    WellFormed kv := by
  unfold decodesTo at h
  split_ifs at h
  · exact Unmarshal_wellFormed res kv h
  · cases h; exact wellFormed_nil

namespace RedisClient

theorem Marshal_length (m : GoMap) : ¬ (Marshal m).length = 0 := by
  simp [Marshal]

theorem getFromBatch_decodesTo (res : GoString) (kv : GoMap) (exp : Bool) (suffix : GoString)
    (h : decodesTo res kv) :
    getFromBatch ⟨some res, exp⟩ suffix = recordLookup kv suffix := by
  unfold decodesTo at h
  unfold getFromBatch recordLookup
  simp only
  by_cases hl : res.length = 0
  · rw [if_pos hl]
    rw [if_neg (by omega)] at h
    cases h
    rfl
  · rw [if_neg hl]
    rw [if_pos (by omega)] at h
    rw [h]

theorem getFromBatch_Marshal (m : GoMap) (hm : WellFormed m) (exp : Bool) (suffix : GoString) :
    getFromBatch ⟨some (Marshal m), exp⟩ suffix = recordLookup m suffix := by
  obtain ⟨m', h1, h2⟩ := mapIndex_Unmarshal_Marshal m hm
  have hd : decodesTo (Marshal m) m' := by
    unfold decodesTo
    rw [if_pos (Nat.pos_of_ne_zero (Marshal_length m)), h1]
  rw [getFromBatch_decodesTo _ _ _ _ hd]
  unfold recordLookup
  rw [h2]

theorem getFromBatch_empty (exp : Bool) (suffix : GoString) :
    getFromBatch ⟨some [], exp⟩ suffix = .err .ErrorSuffiedKeyNotFound := rfl

theorem Get_fst (lifetime : Int) (gap : Nat) (st : Store) (key suffix : GoString) :
    (Get lifetime gap st key suffix).1
      = getFromBatch ⟨st.get key, (pipelinedGetExpire lifetime gap st key).1.exp⟩ suffix := rfl

/-! ### `Set` -/

theorem setCompute_ok (res : Option GoString) (suffix : GoString) (value : Payload)
    (d : GoString) (h : setCompute res suffix value = .ok d) :
    ∃ r kv, res = some r ∧ decodesTo r kv ∧ d = Marshal (mapAssign kv suffix value) := by
  unfold setCompute at h
  cases res with
  | none => cases h
  | some r =>
    simp only at h
    cases hd : (if r.length > 0 then Unmarshal r else Unmarshaled.object []) with
    | error => rw [hd] at h; cases h
    | null => rw [hd] at h; cases h
    | object kv =>
      rw [hd] at h
      simp only [Result.ok.injEq] at h
      exact ⟨r, kv, rfl, hd, h.symm⟩

theorem setCompute_not_conflict (res : Option GoString) (suffix : GoString) (value : Payload) :
    setCompute res suffix value ≠ .err .TxFailedErr := by
  unfold setCompute
  cases res with
  | none => simp
  | some r =>
    simp only
    cases (if r.length > 0 then Unmarshal r else Unmarshaled.object []) <;> simp

theorem setTxf_not_conflict (lifetime : Int) (key suffix : GoString) (value : Payload)
    (st : Store) : (setTxf lifetime key suffix value st).1 ≠ .err .TxFailedErr := by
  unfold setTxf
  have := setCompute_not_conflict (st.get key) suffix value
  cases h : setCompute (st.get key) suffix value with
  | ok d => simp
  | panic => simp
  | err e =>
    rw [h] at this
    simp only [ne_eq, Result.err.injEq] at this ⊢
    exact this

/-- `Set` is its first attempt: the function `txf` never reports a conflict. -/
theorem Set_eq_setTxf (lifetime : Int) (st : Store) (key suffix : GoString) (value : Payload) :
    Set lifetime st key suffix value = setTxf lifetime key suffix value st := by
  unfold Set matRetries
  rw [retryLoop_of_not_conflict _ _ _ (by unfold Watch; exact setTxf_not_conflict _ _ _ _ _)]
  rfl

/-- A successful `Set`: the key held a value that decodes to a record, and now
holds the document of the record with the field assigned. -/
theorem Set_ok (lifetime : Int) (st : Store) (key suffix : GoString) (value : Payload)
    (h : (Set lifetime st key suffix value).1 = .ok ()) :
    ∃ r kv, st.get key = some r ∧ decodesTo r kv
      ∧ (Set lifetime st key suffix value).2
        = clientSet st key (Marshal (mapAssign kv suffix value)) (duration lifetime) := by
  rw [Set_eq_setTxf] at h ⊢
  unfold setTxf at h ⊢
  cases hc : setCompute (st.get key) suffix value with
  | err e => rw [hc] at h; cases h
  | panic => rw [hc] at h; cases h
  | ok d =>
    obtain ⟨r, kv, h1, h2, h3⟩ := setCompute_ok _ _ _ _ hc
    exact ⟨r, kv, h1, h2, by rw [h3]⟩

/-! ### `Delete` -/

theorem deleteCompute_ok (res : Option GoString) (suffix : GoString) (d : GoString)
    (h : deleteCompute res suffix = .ok d) :
    ∃ r kv, res = some r ∧ ¬ r.length = 0 ∧ decodesTo r kv ∧ (mapIndex kv suffix).isSome
      ∧ d = if (mapDelete kv suffix).length = 0 then [] else Marshal (mapDelete kv suffix) := by
  unfold deleteCompute at h
  cases res with
  | none => cases h
  | some r =>
    simp only at h
    by_cases hl : r.length = 0
    · rw [if_pos hl] at h; cases h
    rw [if_neg hl] at h
    cases hd : Unmarshal r with
    | error => rw [hd] at h; cases h
    | null => rw [hd] at h; cases h
    | object kv =>
      rw [hd] at h
      simp only at h
      cases hi : mapIndex kv suffix with
      | none => rw [hi] at h; cases h
      | some v =>
        rw [hi] at h
        simp only at h
        refine ⟨r, kv, rfl, hl, ?_, by rw [hi]; rfl, ?_⟩
        · unfold decodesTo; rw [if_pos (by omega), hd]
        · split_ifs at h ⊢ <;> cases h <;> rfl

theorem deleteCompute_not_conflict (res : Option GoString) (suffix : GoString) :
    deleteCompute res suffix ≠ .err .TxFailedErr := by
  unfold deleteCompute
  cases res with
  | none => simp
  | some r =>
    simp only
    split_ifs
    · simp
    · cases Unmarshal r with
      | error => simp
      | null => simp
      | object kv =>
        simp only
        cases mapIndex kv suffix with
        | none => simp
        | some v => simp only; split_ifs <;> simp

theorem deleteTxf_not_conflict (lifetime : Int) (key suffix : GoString) (st : Store) :
    (deleteTxf lifetime key suffix st).1 ≠ .err .TxFailedErr := by
  unfold deleteTxf
  have := deleteCompute_not_conflict (st.get key) suffix
  cases h : deleteCompute (st.get key) suffix with
  | ok d => simp
  | panic => simp
  | err e =>
    rw [h] at this
    simp only [ne_eq, Result.err.injEq] at this ⊢
    exact this

/-- `Delete` is its first attempt. -/
theorem Delete_eq_deleteTxf (lifetime : Int) (st : Store) (key suffix : GoString) :
    Delete lifetime st key suffix = deleteTxf lifetime key suffix st := by
  unfold Delete matRetries
  rw [retryLoop_of_not_conflict _ _ _ (by unfold Watch; exact deleteTxf_not_conflict _ _ _ _)]
  rfl

/-- A successful `Delete`: the key held a document of a record with the field,
and now holds the document of the record without it, or the empty value. -/
theorem Delete_ok (lifetime : Int) (st : Store) (key suffix : GoString)
    (h : (Delete lifetime st key suffix).1 = .ok ()) :
    ∃ r kv, st.get key = some r ∧ ¬ r.length = 0 ∧ decodesTo r kv
      ∧ (mapIndex kv suffix).isSome
      ∧ (Delete lifetime st key suffix).2
        = clientSet st key
            (if (mapDelete kv suffix).length = 0 then [] else Marshal (mapDelete kv suffix))
            (duration lifetime) := by
  rw [Delete_eq_deleteTxf] at h ⊢
  unfold deleteTxf at h ⊢
  cases hc : deleteCompute (st.get key) suffix with
  | err e => rw [hc] at h; cases h
  | panic => rw [hc] at h; cases h
  | ok d =>
    obtain ⟨r, kv, h1, h2, h3, h4, h5⟩ := deleteCompute_ok _ _ _ hc
    exact ⟨r, kv, h1, h2, h3, h4, by rw [h5]⟩

end RedisClient

/-! ## C1: `Set` then `Get` -/

/-- C1, as stated, fails: after `Set(key, "\xff", P)` has returned no error,
`Get(key, "\xff")` returns `ErrorSuffiedKeyNotFound`, because `json.Marshal`
writes the key `"\xff"` as U+FFFD. -/
theorem set_get_invalid_utf8_suffix :
    (RedisClient.Set 600 sessionStore exampleKey [0xFF] (some [1])).1 = .ok ()
    ∧ (RedisClient.Get 600 0 (RedisClient.Set 600 sessionStore exampleKey [0xFF] (some [1])).2
        exampleKey [0xFF]).1 = .err .ErrorSuffiedKeyNotFound := by
  decide

/-- C1, amended: for every lifetime, store, key, payload (nil and empty
included) and every suffix that is valid UTF-8 (the empty one included), if
`Set(key, S, P)` returns no error then the next `Get(key, S)` returns no error
and the payload `P`, whatever the key held before. -/
theorem set_get_roundtrip (lifetime : Int) (gap : Nat) (st : Store)
    (key suffix : GoString) (value : Payload) (hv : utf8Valid suffix = true)
    (hset : (RedisClient.Set lifetime st key suffix value).1 = .ok ()) :
    (RedisClient.Get lifetime gap (RedisClient.Set lifetime st key suffix value).2
      key suffix).1 = .ok value := by
  obtain ⟨r, kv, _, hd, hst⟩ := RedisClient.Set_ok lifetime st key suffix value hset
  have hw := wellFormed_mapAssign kv suffix value (decodesTo_wellFormed r kv hd) hv
  rw [RedisClient.Get_fst, hst, clientSet_get, RedisClient.getFromBatch_Marshal _ hw]
  unfold recordLookup
  rw [mapIndex_mapAssign]
  simp

/-- C1, amended, at a new session: the suffix `"a"` and the nil payload. -/
theorem set_get_roundtrip_witness :
    utf8Valid (ascii "a") = true
    ∧ (RedisClient.Set 600 sessionStore exampleKey (ascii "a") none).1 = .ok ()
    ∧ (RedisClient.Get 600 0 (RedisClient.Set 600 sessionStore exampleKey (ascii "a") none).2
        exampleKey (ascii "a")).1 = .ok none :=
  ⟨by decide, by decide,
    set_get_roundtrip 600 0 sessionStore exampleKey (ascii "a") none (by decide) (by decide)⟩

/-! ## C2: two concurrent calls of `Set` -/

/-- A call of `Set` whose commands run without another client's command in
between is `RedisClient.Set`. -/
theorem SetCall.step_alone (lifetime : Int) (c : SetCall) (st : Store) :
    c.step lifetime (c.step lifetime (.start 0) st).1 (c.step lifetime (.start 0) st).2
      = (.done (RedisClient.Set lifetime st c.key c.suffix c.value).1,
          (RedisClient.Set lifetime st c.key c.suffix c.value).2) := by
  rw [RedisClient.Set_eq_setTxf]
  have h0 : c.step lifetime (.start 0) st = (.read 0 (st.get c.key), st) := by
    simp [SetCall.step, matRetries]
  rw [h0]
  simp only [SetCall.step, RedisClient.setTxf]
  have hn := RedisClient.setCompute_not_conflict (st.get c.key) c.suffix c.value
  cases h : RedisClient.setCompute (st.get c.key) c.suffix c.value with
  | ok d => rfl
  | panic => rfl
  | err e =>
    rw [h] at hn
    cases e <;> first | rfl | exact absurd rfl hn

/-- C2 fails on the code: when the two calls `Set(key, "a", [1])` and
`Set(key, "b", [2])` on a new session send `GET`, `GET`, `SET`, `SET` in this
order, both return no error, no attempt reports a conflict, and afterwards
`Get(key, "b")` returns `[2]` but `Get(key, "a")` returns
`ErrorSuffiedKeyNotFound`: the field `"a"` is lost.  (When the second call
starts after the first has returned, both fields are there.) -/
theorem concurrent_set_loses_update :
    (runTwo 600 callA callB [false, true, false, true]
        ⟨.start 0, .start 0, sessionStore⟩).first = .done (.ok ())
    ∧ (runTwo 600 callA callB [false, true, false, true]
        ⟨.start 0, .start 0, sessionStore⟩).second = .done (.ok ())
    ∧ (RedisClient.Get 600 0
        (runTwo 600 callA callB [false, true, false, true]
          ⟨.start 0, .start 0, sessionStore⟩).store exampleKey (ascii "b")).1
        = .ok (some [2])
    ∧ (RedisClient.Get 600 0
        (runTwo 600 callA callB [false, true, false, true]
          ⟨.start 0, .start 0, sessionStore⟩).store exampleKey (ascii "a")).1
        = .err .ErrorSuffiedKeyNotFound
    ∧ (RedisClient.Get 600 0
        (runTwo 600 callA callB [false, false, true, true]
          ⟨.start 0, .start 0, sessionStore⟩).store exampleKey (ascii "a")).1
        = .ok (some [1])
    ∧ (RedisClient.Get 600 0
        (runTwo 600 callA callB [false, false, true, true]
          ⟨.start 0, .start 0, sessionStore⟩).store exampleKey (ascii "b")).1
        = .ok (some [2]) := by
  decide

/-! ## C3: isolation across suffixes -/

/-- C3, as stated, fails: with `b` the suffix U+FFFD and `a` the distinct
suffix `"\xff"`, `Get(key, b)` returns `[1]` before a successful
`Set(key, a, [2])` and `[2]` after it. -/
theorem set_changes_other_suffix :
    ([0xFF] : GoString) ≠ [0xEF, 0xBF, 0xBD]
    ∧ (RedisClient.Get 600 0 replacementStore exampleKey [0xEF, 0xBF, 0xBD]).1 = .ok (some [1])
    ∧ (RedisClient.Set 600 replacementStore exampleKey [0xFF] (some [2])).1 = .ok ()
    ∧ (RedisClient.Get 600 0
        (RedisClient.Set 600 replacementStore exampleKey [0xFF] (some [2])).2
        exampleKey [0xEF, 0xBF, 0xBD]).1 = .ok (some [2]) := by
  decide

/-- C3, amended: for distinct suffixes `a` and `b`, a successful `Set(key, a, P)`
with `a` valid UTF-8, and a successful `Delete(key, a)`, leave the outcome of
`Get(key, b)` unchanged: the same payload, or the same error. -/
theorem other_suffix_unchanged (lifetime : Int) (gap gap' : Nat) (st : Store)
    (key a b : GoString) (value : Payload) (hab : a ≠ b) :
    (utf8Valid a = true → (RedisClient.Set lifetime st key a value).1 = .ok () →
      (RedisClient.Get lifetime gap' (RedisClient.Set lifetime st key a value).2 key b).1
        = (RedisClient.Get lifetime gap st key b).1)
    ∧ ((RedisClient.Delete lifetime st key a).1 = .ok () →
      (RedisClient.Get lifetime gap' (RedisClient.Delete lifetime st key a).2 key b).1
        = (RedisClient.Get lifetime gap st key b).1) := by
  have hba : ¬ b = a := fun h => hab h.symm
  constructor
  · intro hv hset
    obtain ⟨r, kv, hg, hd, hst⟩ := RedisClient.Set_ok lifetime st key a value hset
    have hw := wellFormed_mapAssign kv a value (decodesTo_wellFormed r kv hd) hv
    rw [RedisClient.Get_fst, hst, clientSet_get, RedisClient.getFromBatch_Marshal _ hw,
      RedisClient.Get_fst, hg, RedisClient.getFromBatch_decodesTo _ _ _ _ hd]
    unfold recordLookup
    rw [mapIndex_mapAssign, if_neg hba]
  · intro hdel
    obtain ⟨r, kv, hg, _, hd, _, hst⟩ := RedisClient.Delete_ok lifetime st key a hdel
    have hw := wellFormed_mapDelete kv a (decodesTo_wellFormed r kv hd)
    have hidx : mapIndex (mapDelete kv a) b = mapIndex kv b := by
      rw [mapIndex_mapDelete, if_neg hba]
    rw [RedisClient.Get_fst, hst, clientSet_get, RedisClient.Get_fst, hg,
      RedisClient.getFromBatch_decodesTo _ _ _ _ hd]
    by_cases hl : (mapDelete kv a).length = 0
    · rw [if_pos hl, RedisClient.getFromBatch_empty]
      have : mapDelete kv a = [] := List.eq_nil_of_length_eq_zero hl
      rw [this] at hidx
      unfold recordLookup
      rw [← hidx]
      rfl
    · rw [if_neg hl, RedisClient.getFromBatch_Marshal _ hw]
      unfold recordLookup
      rw [hidx]

/-- C3, amended, at a session with the field `"a"`: setting `"a"` again and
deleting `"a"` keep the outcome of `Get(key, "b")`. -/
theorem other_suffix_unchanged_witness :
    ascii "a" ≠ ascii "b"
    ∧ utf8Valid (ascii "a") = true
    ∧ (RedisClient.Set 600 fieldStore exampleKey (ascii "a") none).1 = .ok ()
    ∧ (RedisClient.Get 600 0 (RedisClient.Set 600 fieldStore exampleKey (ascii "a") none).2
        exampleKey (ascii "b")).1
      = (RedisClient.Get 600 0 fieldStore exampleKey (ascii "b")).1
    ∧ (RedisClient.Delete 600 fieldStore exampleKey (ascii "a")).1 = .ok ()
    ∧ (RedisClient.Get 600 0 (RedisClient.Delete 600 fieldStore exampleKey (ascii "a")).2
        exampleKey (ascii "b")).1
      = (RedisClient.Get 600 0 fieldStore exampleKey (ascii "b")).1 :=
  ⟨by decide, by decide, by decide,
    (other_suffix_unchanged 600 0 0 fieldStore exampleKey (ascii "a") (ascii "b") none
      (by decide)).1 (by decide) (by decide),
    by decide,
    (other_suffix_unchanged 600 0 0 fieldStore exampleKey (ascii "a") (ascii "b") none
      (by decide)).2 (by decide)⟩

/-! ## C4: deleting twice -/

theorem mapDelete_eq_nil_of_lookups (kv : GoMap) (s : GoString)
    (h : ∀ b, b ≠ s → mapIndex kv b = none) : mapDelete kv s = [] := by
  unfold mapDelete
  rw [List.filter_eq_nil_iff]
  intro e he
  by_cases hs : e.1 = s
  · simp [hs]
  · exfalso
    have h1 := h e.1 hs
    rw [mapIndex_eq_none_iff] at h1
    exact h1 (List.mem_map_of_mem Prod.fst he)

/-- C4: after `Delete(key, S)` has returned no error, the next `Get(key, S)`
returns `ErrorSuffiedKeyNotFound`, and the next `Delete(key, S)` returns
`ErrorSuffiedKeyNotFound` and leaves the store as it is.  When `S` was the
last field (every other suffix was not found before), the first `Delete`
stores the empty value, the value of a newly created session. -/
theorem delete_twice (lifetime : Int) (gap : Nat) (st : Store) (key suffix : GoString)
    (hdel : (RedisClient.Delete lifetime st key suffix).1 = .ok ()) :
    (RedisClient.Get lifetime gap (RedisClient.Delete lifetime st key suffix).2
        key suffix).1 = .err .ErrorSuffiedKeyNotFound
    ∧ RedisClient.Delete lifetime (RedisClient.Delete lifetime st key suffix).2 key suffix
        = (.err .ErrorSuffiedKeyNotFound, (RedisClient.Delete lifetime st key suffix).2)
    ∧ ((∀ b, b ≠ suffix →
          (RedisClient.Get lifetime gap st key b).1 = .err .ErrorSuffiedKeyNotFound) →
        (RedisClient.Delete lifetime st key suffix).2.get key = some []
        ∧ (RedisClient.Delete lifetime st key suffix).2.get key
            = (RedisClient.NewSessionId lifetime key st).2.get key) := by
  obtain ⟨r, kv, hg, _, hd, _, hst⟩ := RedisClient.Delete_ok lifetime st key suffix hdel
  have hw := wellFormed_mapDelete kv suffix (decodesTo_wellFormed r kv hd)
  have hidx : mapIndex (mapDelete kv suffix) suffix = none := by
    rw [mapIndex_mapDelete, if_pos rfl]
  have hget : ∀ exp, RedisClient.getFromBatch
      ⟨some (if (mapDelete kv suffix).length = 0 then []
        else Marshal (mapDelete kv suffix)), exp⟩ suffix
      = .err .ErrorSuffiedKeyNotFound := by
    intro exp
    by_cases hl : (mapDelete kv suffix).length = 0
    · rw [if_pos hl]; rfl
    · rw [if_neg hl, RedisClient.getFromBatch_Marshal _ hw]
      unfold recordLookup
      rw [hidx]
  refine ⟨?_, ?_, ?_⟩
  · rw [RedisClient.Get_fst, hst, clientSet_get]
    exact hget _
  · rw [RedisClient.Delete_eq_deleteTxf lifetime _ key suffix]
    unfold RedisClient.deleteTxf
    have hc : RedisClient.deleteCompute
        ((RedisClient.Delete lifetime st key suffix).2.get key) suffix
        = .err .ErrorSuffiedKeyNotFound := by
      rw [hst, clientSet_get]
      unfold RedisClient.deleteCompute
      simp only
      by_cases hl : (mapDelete kv suffix).length = 0
      · rw [if_pos hl]; rfl
      · rw [if_neg hl, if_neg (RedisClient.Marshal_length _)]
        obtain ⟨m', h1, h2⟩ := mapIndex_Unmarshal_Marshal _ hw
        rw [h1]
        simp only
        rw [h2, hidx]
    rw [hc]
  · intro hlast
    have hnil : mapDelete kv suffix = [] := by
      apply mapDelete_eq_nil_of_lookups
      intro b hb
      have := hlast b hb
      rw [RedisClient.Get_fst, hg, RedisClient.getFromBatch_decodesTo _ _ _ _ hd] at this
      unfold recordLookup at this
      cases hi : mapIndex kv b with
      | none => rfl
      | some v => rw [hi] at this; cases this
    have hempty : (RedisClient.Delete lifetime st key suffix).2.get key = some [] := by
      rw [hst, clientSet_get, hnil]
      rfl
    refine ⟨hempty, ?_⟩
    rw [hempty]
    unfold RedisClient.NewSessionId
    rw [clientSet_get]

/-- C4 at a session whose only field is `"a"`. -/
theorem delete_twice_witness :
    (RedisClient.Delete 600 fieldStore exampleKey (ascii "a")).1 = .ok ()
    ∧ (RedisClient.Get 600 0 (RedisClient.Delete 600 fieldStore exampleKey (ascii "a")).2
        exampleKey (ascii "a")).1 = .err .ErrorSuffiedKeyNotFound
    ∧ RedisClient.Delete 600 (RedisClient.Delete 600 fieldStore exampleKey (ascii "a")).2
        exampleKey (ascii "a")
      = (.err .ErrorSuffiedKeyNotFound,
          (RedisClient.Delete 600 fieldStore exampleKey (ascii "a")).2) :=
  ⟨by decide,
    (delete_twice 600 0 fieldStore exampleKey (ascii "a") (by decide)).1,
    (delete_twice 600 0 fieldStore exampleKey (ascii "a") (by decide)).2.1⟩

/-! ## C5: absent key -/

theorem IsExists_absent (lifetime : Int) (gap : Nat) (st : Store) (key : GoString)
    (habs : st.get key = none) :
    RedisClient.IsExists lifetime gap st key
      = ((false, some .ErrorKeyNotFound), st.elapse gap) := by
  have hl' : (st.elapse gap).lookup key = none :=
    lookup_elapse_none st key gap ((get_eq_none_iff st key).mp habs)
  have hexp : clientExpire (st.elapse gap) key (duration lifetime) = (false, st.elapse gap) :=
    expire_absent _ _ _ hl'
  unfold RedisClient.IsExists pipelinedGetExpire
  simp only [habs, hexp]

/-- C5: for a key that is absent at the store, `IsExists` returns
`(false, ErrorKeyNotFound)` and `Get`, `Set` and `Delete` return
`ErrorKeyNotFound`; `Set` and `Delete` leave the store as it is and the two
readers only let the time of their batch pass, so the key is still absent and
no entry has changed; the first attempt of `Set` and of `Delete` returns the
error, and the loop returns it whatever number of attempts it allows; with the
attempts counted, the loop of `Set` and the loop of `Delete` end after exactly
one attempt of the `matRetries` allowed: nothing is retried. -/
theorem absent_key (lifetime : Int) (gap : Nat) (st : Store) (key suffix : GoString)
    (value : Payload) (habs : st.get key = none) :
    RedisClient.IsExists lifetime gap st key
        = ((false, some .ErrorKeyNotFound), st.elapse gap)
    ∧ RedisClient.Get lifetime gap st key suffix = (.err .ErrorKeyNotFound, st.elapse gap)
    ∧ RedisClient.Set lifetime st key suffix value = (.err .ErrorKeyNotFound, st)
    ∧ RedisClient.Delete lifetime st key suffix = (.err .ErrorKeyNotFound, st)
    ∧ (st.elapse gap).get key = none
    ∧ (st.elapse gap).data = st.data
    ∧ (∀ n, retryLoop (Watch (RedisClient.setTxf lifetime key suffix value)) (n + 1) st
        = (.err .ErrorKeyNotFound, st))
    ∧ (∀ n, retryLoop (Watch (RedisClient.deleteTxf lifetime key suffix)) (n + 1) st
        = (.err .ErrorKeyNotFound, st))
    ∧ retryLoop (counting (Watch (RedisClient.setTxf lifetime key suffix value)))
        matRetries (st, 0) = (.err .ErrorKeyNotFound, (st, 1))
    ∧ retryLoop (counting (Watch (RedisClient.deleteTxf lifetime key suffix)))
        matRetries (st, 0) = (.err .ErrorKeyNotFound, (st, 1)) := by
  have hl : st.lookup key = none := (get_eq_none_iff st key).mp habs
  have hl' : (st.elapse gap).lookup key = none := lookup_elapse_none st key gap hl
  have hexp : clientExpire (st.elapse gap) key (duration lifetime) = (false, st.elapse gap) :=
    expire_absent _ _ _ hl'
  have hset : RedisClient.setTxf lifetime key suffix value st = (.err .ErrorKeyNotFound, st) := by
    unfold RedisClient.setTxf RedisClient.setCompute
    rw [habs]
  have hdel : RedisClient.deleteTxf lifetime key suffix st = (.err .ErrorKeyNotFound, st) := by
    unfold RedisClient.deleteTxf RedisClient.deleteCompute
    rw [habs]
  have hsetn : ∀ n, retryLoop (Watch (RedisClient.setTxf lifetime key suffix value)) (n + 1) st
      = (.err .ErrorKeyNotFound, st) := by
    intro n
    rw [retryLoop_of_not_conflict _ _ _
      (by unfold Watch; exact RedisClient.setTxf_not_conflict _ _ _ _ _)]
    exact hset
  have hdeln : ∀ n, retryLoop (Watch (RedisClient.deleteTxf lifetime key suffix)) (n + 1) st
      = (.err .ErrorKeyNotFound, st) := by
    intro n
    rw [retryLoop_of_not_conflict _ _ _
      (by unfold Watch; exact RedisClient.deleteTxf_not_conflict _ _ _ _)]
    exact hdel
  have hsetw : Watch (RedisClient.setTxf lifetime key suffix value) st
      = (.err .ErrorKeyNotFound, st) := hset
  have hdelw : Watch (RedisClient.deleteTxf lifetime key suffix) st
      = (.err .ErrorKeyNotFound, st) := hdel
  have hsetc : retryLoop (counting (Watch (RedisClient.setTxf lifetime key suffix value)))
      matRetries (st, 0) = (.err .ErrorKeyNotFound, (st, 1)) := by
    unfold matRetries
    rw [retryLoop_of_not_conflict _ _ _ (by
      unfold counting
      simp only [hsetw]
      exact fun h => by cases h)]
    unfold counting
    simp only [hsetw]
  have hdelc : retryLoop (counting (Watch (RedisClient.deleteTxf lifetime key suffix)))
      matRetries (st, 0) = (.err .ErrorKeyNotFound, (st, 1)) := by
    unfold matRetries
    rw [retryLoop_of_not_conflict _ _ _ (by
      unfold counting
      simp only [hdelw]
      exact fun h => by cases h)]
    unfold counting
    simp only [hdelw]
  refine ⟨?_, ?_, ?_, ?_, (get_eq_none_iff _ _).mpr hl', rfl, hsetn, hdeln, hsetc, hdelc⟩
  · exact IsExists_absent lifetime gap st key habs
  · unfold RedisClient.Get pipelinedGetExpire RedisClient.getFromBatch
    simp only [habs, hexp]
  · rw [RedisClient.Set_eq_setTxf]; exact hset
  · rw [RedisClient.Delete_eq_deleteTxf]; exact hdel

/-- C5 at the store without keys: `Set` returns `ErrorKeyNotFound` and leaves
the store, after one attempt. -/
theorem absent_key_witness :
    emptyStore.get exampleKey = none
    ∧ RedisClient.Set 600 emptyStore exampleKey (ascii "a") (some [7])
        = (.err .ErrorKeyNotFound, emptyStore)
    ∧ retryLoop (counting (Watch (RedisClient.setTxf 600 exampleKey (ascii "a") (some [7]))))
        matRetries (emptyStore, 0) = (.err .ErrorKeyNotFound, (emptyStore, 1)) :=
  ⟨rfl, (absent_key 600 0 emptyStore exampleKey (ascii "a") (some [7]) rfl).2.2.1,
    (absent_key 600 0 emptyStore exampleKey (ascii "a") (some [7]) rfl).2.2.2.2.2.2.2.2.1⟩

/-! ## C6: `Get` and the reply of `EXPIRE` -/

/-- The result of `Get` does not depend on the reply of `EXPIRE`. -/
theorem getFromBatch_reply_unused (res : Option GoString) (exp exp' : Bool)
    (suffix : GoString) :
    RedisClient.getFromBatch ⟨res, exp⟩ suffix = RedisClient.getFromBatch ⟨res, exp'⟩ suffix :=
  rfl

/-- C6 fails on the code: when the key expires between the two commands of the
batch, `GET` returns the document and `EXPIRE` replies false; `IsExists`
returns `ErrorFailed`, but `Get` returns the payload and no error (the error it
builds is not returned), although the key is gone. -/
theorem get_ignores_failed_expire :
    (pipelinedGetExpire 1 1000 shortStore exampleKey).1.exp = false
    ∧ (RedisClient.IsExists 1 1000 shortStore exampleKey).1 = (false, some .ErrorFailed)
    ∧ (RedisClient.Get 1 1000 shortStore exampleKey (ascii "a")).1 = .ok (some [7])
    ∧ (RedisClient.Get 1 1000 shortStore exampleKey (ascii "a")).2.get exampleKey = none := by
  decide

/-! ## C7: bounded retry -/

theorem stateBefore_shift {σ : Type} (attempt : σ → Result Unit × σ) (st : σ) (i : Nat) :
    stateBefore attempt (attempt st).2 i = stateBefore attempt st (i + 1) := by
  induction i with
  | zero => rfl
  | succ n ih => simp only [stateBefore]; rw [ih]; rfl

theorem retryLoop_counting_le {σ : Type} (attempt : σ → Result Unit × σ) (n : Nat) :
    ∀ (st : σ) (c : Nat), (retryLoop (counting attempt) n (st, c)).2.2 ≤ c + n := by
  induction n with
  | zero => intro st c; simp [retryLoop]
  | succ n ih =>
    intro st c
    by_cases h : (counting attempt (st, c)).1 = .err .TxFailedErr
    · rw [retryLoop_of_conflict _ _ _ h]
      have := ih (attempt st).2 (c + 1)
      simp only [counting] at this ⊢
      omega
    · rw [retryLoop_of_not_conflict _ _ _ h]
      simp only [counting]
      omega

theorem retryLoop_counting_all_conflict {σ : Type} (attempt : σ → Result Unit × σ) (n : Nat) :
    ∀ (st : σ) (c : Nat),
      (∀ i, i < n → (attempt (stateBefore attempt st i)).1 = .err .TxFailedErr) →
      retryLoop (counting attempt) n (st, c)
        = (.err .ErrorFailed, (stateBefore attempt st n, c + n)) := by
  induction n with
  | zero => intro st c _; rfl
  | succ n ih =>
    intro st c h
    have h0 : (counting attempt (st, c)).1 = .err .TxFailedErr := h 0 (by omega)
    rw [retryLoop_of_conflict _ _ _ h0]
    have := ih (attempt st).2 (c + 1) (by
      intro i hi
      rw [stateBefore_shift]
      exact h (i + 1) (by omega))
    simp only [counting]
    rw [this, stateBefore_shift]
    have e : c + 1 + n = c + (n + 1) := by omega
    rw [e]

theorem retryLoop_counting_first {σ : Type} (attempt : σ → Result Unit × σ) (k : Nat) :
    ∀ (n : Nat) (st : σ) (c : Nat), k < n →
      (∀ i, i < k → (attempt (stateBefore attempt st i)).1 = .err .TxFailedErr) →
      (attempt (stateBefore attempt st k)).1 ≠ .err .TxFailedErr →
      retryLoop (counting attempt) n (st, c)
        = ((attempt (stateBefore attempt st k)).1,
            ((attempt (stateBefore attempt st k)).2, c + (k + 1))) := by
  induction k with
  | zero =>
    intro n st c hn _ hk
    cases n with
    | zero => omega
    | succ n =>
      rw [retryLoop_of_not_conflict _ _ _ (by simpa [counting] using hk)]
      rfl
  | succ k ih =>
    intro n st c hn h hk
    cases n with
    | zero => omega
    | succ n =>
      have h0 : (counting attempt (st, c)).1 = .err .TxFailedErr := h 0 (by omega)
      rw [retryLoop_of_conflict _ _ _ h0]
      have := ih n (attempt st).2 (c + 1) (by omega)
        (by intro i hi; rw [stateBefore_shift]; exact h (i + 1) (by omega))
        (by rw [stateBefore_shift]; exact hk)
      simp only [counting]
      rw [this, stateBefore_shift]
      have e : c + 1 + (k + 1) = c + (k + 1 + 1) := by omega
      rw [e]

/-- C7: `Set` and `Delete` are the loop of at most `matRetries = 10` attempts of
`client.Watch`.  For every behaviour of the attempts: at most 10 attempts are
made; if each of the 10 attempts reports `redis.TxFailedErr`, the call returns
`ErrorFailed` after exactly 10 attempts; if the attempts before attempt `k`
report `redis.TxFailedErr` and attempt `k` returns nil or another error (or
panics), the call returns what attempt `k` returned, after exactly `k + 1`
attempts. -/
theorem retry_bounded {σ : Type} (attempt : σ → Result Unit × σ) (st : σ) :
    matRetries = 10
    ∧ (∀ lifetime s key suffix value, RedisClient.Set lifetime s key suffix value
        = retryLoop (Watch (RedisClient.setTxf lifetime key suffix value)) matRetries s)
    ∧ (∀ lifetime s key suffix, RedisClient.Delete lifetime s key suffix
        = retryLoop (Watch (RedisClient.deleteTxf lifetime key suffix)) matRetries s)
    ∧ (retryLoop (counting attempt) matRetries (st, 0)).2.2 ≤ 10
    ∧ ((∀ i, i < 10 → (attempt (stateBefore attempt st i)).1 = .err .TxFailedErr) →
        retryLoop (counting attempt) matRetries (st, 0)
          = (.err .ErrorFailed, (stateBefore attempt st 10, 10)))
    ∧ (∀ k, k < 10 →
        (∀ i, i < k → (attempt (stateBefore attempt st i)).1 = .err .TxFailedErr) →
        (attempt (stateBefore attempt st k)).1 ≠ .err .TxFailedErr →
        retryLoop (counting attempt) matRetries (st, 0)
          = ((attempt (stateBefore attempt st k)).1,
              ((attempt (stateBefore attempt st k)).2, k + 1))) := by
  refine ⟨rfl, fun _ _ _ _ _ => rfl, fun _ _ _ _ => rfl, ?_, ?_, ?_⟩
  · have := retryLoop_counting_le attempt matRetries st 0
    unfold matRetries at this ⊢
    omega
  · intro h
    have := retryLoop_counting_all_conflict attempt 10 st 0 h
    simpa [matRetries] using this
  · intro k hk h hne
    have := retryLoop_counting_first attempt k 10 st 0 hk h hne
    simpa [matRetries] using this

/-- C7 at attempts that always report a conflict: `ErrorFailed` after exactly
10 attempts. -/
theorem retry_bounded_witness :
    retryLoop (counting alwaysConflict) matRetries (0, 0) = (.err .ErrorFailed, (10, 10)) :=
  (retry_bounded alwaysConflict 0).2.2.2.2.1 (fun _ _ => rfl)

/-! ## C8: sliding expiration -/

theorem duration_of_bounded (lifetime : Int) (hpos : 0 < lifetime)
    (hmax : lifetime ≤ 9223372036) : duration lifetime = lifetime * 1000000000 := by
  unfold duration wrapInt64
  norm_num
  omega

theorem formatSec_seconds (lifetime : Int) (hpos : 0 < lifetime) :
    formatSec (lifetime * 1000000000) = lifetime := by
  unfold formatSec
  rw [if_neg (by omega), Int.tdiv_eq_ediv (by omega) (by omega)]
  omega

theorem usePrecise_seconds (lifetime : Int) (hpos : 0 < lifetime) :
    usePrecise (lifetime * 1000000000) = false := by
  unfold usePrecise
  have h1 : ¬ (lifetime * 1000000000 < 1000000000) := by omega
  have h2 : Int.tmod (lifetime * 1000000000) 1000000000 = 0 := by
    rw [Int.tmod_eq_emod (by omega) (by omega)]
    omega
  simp [h1, h2]

theorem pttl_set_self (st : Store) (key value : GoString) (ms : Nat) (h : 0 < ms) :
    (st.set key value (some ms)).pttl key = some (some ms) := by
  unfold Store.pttl
  rw [lookup_set_self _ _ _ _ (by intro m hm; cases hm; exact h)]
  simp [Store.set]

/-- After `client.Set` with a lifetime of `L` seconds, the key has a TTL of
`L` seconds. -/
theorem clientSet_pttl (st : Store) (key value : GoString) (lifetime : Int)
    (hpos : 0 < lifetime) (hmax : lifetime ≤ 9223372036) :
    (clientSet st key value (duration lifetime)).pttl key
      = some (some (lifetime.toNat * 1000)) := by
  rw [duration_of_bounded lifetime hpos hmax]
  unfold clientSet
  rw [if_pos (by omega), usePrecise_seconds lifetime hpos, formatSec_seconds lifetime hpos]
  simp only [Bool.false_eq_true, if_false]
  exact pttl_set_self _ _ _ _ (by omega)

/-- After `EXPIRE` with a lifetime of `L` seconds has replied true, the key has
a TTL of `L` seconds. -/
theorem clientExpire_pttl (st : Store) (key : GoString) (lifetime : Int)
    (hpos : 0 < lifetime) (hmax : lifetime ≤ 9223372036)
    (h : (clientExpire st key (duration lifetime)).1 = true) :
    (clientExpire st key (duration lifetime)).2.pttl key
      = some (some (lifetime.toNat * 1000)) := by
  rw [duration_of_bounded lifetime hpos hmax] at h ⊢
  unfold clientExpire at h ⊢
  rw [formatSec_seconds lifetime hpos] at h ⊢
  unfold Store.expire at h ⊢
  cases hl : st.lookup key with
  | none => rw [hl] at h; cases h
  | some e =>
    simp only
    rw [if_neg (by omega)]
    simp only [Store.pttl, Store.lookup, Function.update_same]
    rw [if_neg (by omega)]
    simp

/-- C8, as stated, fails: with the positive lifetime of 9223372037 seconds the
product `time.Duration(lifetime) * time.Second` overflows to a negative
duration, `NewSessionId` sends `SET` without an expiry and returns the key, and
the key has no TTL at all. -/
theorem lifetime_overflow_no_ttl :
    (0 : Int) < 9223372037
    ∧ duration 9223372037 = -9223372036709551616
    ∧ (RedisClient.NewSessionId 9223372037 exampleKey emptyStore).1 = .ok exampleKey
    ∧ (RedisClient.NewSessionId 9223372037 exampleKey emptyStore).2.pttl exampleKey
        = some none := by
  decide

/-- C8, amended: with a lifetime of `L` seconds, `0 < L ≤ 9223372036` (the
lifetimes whose nanoseconds fit a `time.Duration`), the key's TTL is exactly
`L` seconds after `NewSessionId`, after an `IsExists` that returned
`(true, nil)`, after a `Set` and a `Delete` that returned no error (whichever
value `Delete` wrote), and after a `Get` that returned a payload and whose
`EXPIRE` replied true; whatever the TTL was before. -/
theorem sliding_expiration (lifetime : Int) (gap : Nat) (st : Store)
    (key suffix : GoString) (value : Payload)
    (hpos : 0 < lifetime) (hmax : lifetime ≤ 9223372036) :
    (RedisClient.NewSessionId lifetime key st).2.pttl key = some (some (lifetime.toNat * 1000))
    ∧ ((RedisClient.IsExists lifetime gap st key).1 = (true, none) →
        (RedisClient.IsExists lifetime gap st key).2.pttl key
          = some (some (lifetime.toNat * 1000)))
    ∧ ((RedisClient.Get lifetime gap st key suffix).1 = .ok value →
        (pipelinedGetExpire lifetime gap st key).1.exp = true →
        (RedisClient.Get lifetime gap st key suffix).2.pttl key
          = some (some (lifetime.toNat * 1000)))
    ∧ ((RedisClient.Set lifetime st key suffix value).1 = .ok () →
        (RedisClient.Set lifetime st key suffix value).2.pttl key
          = some (some (lifetime.toNat * 1000)))
    ∧ ((RedisClient.Delete lifetime st key suffix).1 = .ok () →
        (RedisClient.Delete lifetime st key suffix).2.pttl key
          = some (some (lifetime.toNat * 1000))) := by
  refine ⟨clientSet_pttl _ _ _ _ hpos hmax, ?_, ?_, ?_, ?_⟩
  · intro h
    have hexp : (clientExpire (st.elapse gap) key (duration lifetime)).1 = true := by
      unfold RedisClient.IsExists pipelinedGetExpire at h
      simp only at h
      cases hg : st.get key with
      | none => rw [hg] at h; cases h
      | some r =>
        rw [hg] at h
        simp only at h
        cases he : (clientExpire (st.elapse gap) key (duration lifetime)).1 with
        | true => rfl
        | false => rw [he] at h; simp at h
    exact (by
      have := clientExpire_pttl (st.elapse gap) key lifetime hpos hmax hexp
      unfold RedisClient.IsExists pipelinedGetExpire
      simp only
      cases hg : st.get key with
      | none => rw [IsExists_absent lifetime gap st key hg] at h; cases h
      | some r =>
        simp only
        rw [hexp]
        exact this)
  · intro _ hexp
    exact clientExpire_pttl (st.elapse gap) key lifetime hpos hmax hexp
  · intro h
    obtain ⟨r, kv, _, _, hst⟩ := RedisClient.Set_ok lifetime st key suffix value h
    rw [hst]
    exact clientSet_pttl _ _ _ _ hpos hmax
  · intro h
    obtain ⟨r, kv, _, _, _, _, hst⟩ := RedisClient.Delete_ok lifetime st key suffix h
    rw [hst]
    exact clientSet_pttl _ _ _ _ hpos hmax

/-- C8, amended, at the example session with the lifetime of 600 seconds: after
`Set` the TTL is 600000 milliseconds. -/
theorem sliding_expiration_witness :
    (0 : Int) < 600 ∧ (600 : Int) ≤ 9223372036
    ∧ (RedisClient.Set 600 sessionStore exampleKey (ascii "a") (some [7])).2.pttl exampleKey
        = some (some 600000) :=
  ⟨by decide, by decide,
    (sliding_expiration 600 0 sessionStore exampleKey (ascii "a") (some [7])
      (by decide) (by decide)).2.2.2.1 (by decide)⟩

/-! ## C9: a new session -/

/-- On a key that `GET` finds, `IsExists` returns `(true, nil)` when the key is
still live at the time of the `EXPIRE`, and `(false, ErrorFailed)` when it has
expired in between. -/
theorem IsExists_of_present (lifetime : Int) (gap : Nat) (st : Store) (key : GoString)
    (hg : (st.get key).isSome = true) :
    (RedisClient.IsExists lifetime gap st key).1
      = if ((st.elapse gap).lookup key).isSome = true then (true, none)
        else (false, some .ErrorFailed) := by
  unfold RedisClient.IsExists pipelinedGetExpire
  cases hget : st.get key with
  | none => rw [hget] at hg; cases hg
  | some r =>
    simp only
    unfold clientExpire
    rw [expire_reply]
    cases ((st.elapse gap).lookup key).isSome <;> rfl

/-- A live key is still live after a time shorter than its TTL. -/
theorem lookup_elapse_live (st : Store) (key : GoString) (gap : Nat)
    (hl : (st.lookup key).isSome = true)
    (h : ∀ t, st.pttl key = some (some t) → gap < t) :
    ((st.elapse gap).lookup key).isSome = true := by
  unfold Store.pttl at h
  unfold Store.lookup Store.elapse at *
  simp only at *
  cases hd : st.data key with
  | none => rw [hd] at hl; cases hl
  | some e =>
    rw [hd] at hl h
    simp only at hl h ⊢
    cases he : e.expireAt with
    | none => rfl
    | some t =>
      rw [he] at hl h
      simp only at hl h ⊢
      by_cases ht : t ≤ st.now
      · rw [if_pos ht] at hl; cases hl
      · rw [if_neg ht] at h
        have := h (t - st.now) (by simp [he])
        rw [if_neg (by omega)]
        rfl

/-- A key is gone after a time that is not shorter than its TTL. -/
theorem lookup_elapse_expired (st : Store) (key : GoString) (gap t : Nat)
    (h : st.pttl key = some (some t)) (hg : t ≤ gap) :
    ((st.elapse gap).lookup key).isSome = false := by
  unfold Store.pttl at h
  unfold Store.lookup Store.elapse at *
  simp only at *
  cases hd : st.data key with
  | none => rfl
  | some e =>
    obtain ⟨v, ex⟩ := e
    rw [hd] at h
    cases ex with
    | none => simp at h
    | some t0 =>
      simp only at h ⊢
      by_cases ht : t0 ≤ st.now
      · rw [if_pos (by omega)]; rfl
      · rw [if_neg ht] at h
        simp only [Option.map_some', Option.some.injEq] at h
        rw [if_pos (by omega)]
        rfl

/-- C9: `NewSessionId` returns the key without error and, for every lifetime
(so for every positive one), the key then holds the empty value; the next
`Get` returns `ErrorSuffiedKeyNotFound` for every suffix and every timing of
its batch; the next `IsExists` returns `(true, nil)` when its batch runs at
once, and at every timing of its batch at which the TTL of the new key has not
run out before the `EXPIRE`.  For a lifetime of `L` seconds,
`0 < L ≤ 9223372036`, that is every time shorter than `L` seconds; from `L`
seconds on the session has expired and `IsExists` returns
`(false, ErrorFailed)`. -/
theorem new_session_live_and_empty (lifetime : Int) (keystr : GoString) (st : Store) :
    (RedisClient.NewSessionId lifetime keystr st).1 = .ok keystr
    ∧ (RedisClient.NewSessionId lifetime keystr st).2.get keystr = some []
    ∧ (RedisClient.IsExists lifetime 0 (RedisClient.NewSessionId lifetime keystr st).2
        keystr).1 = (true, none)
    ∧ (∀ gap : Nat,
        (∀ t, (RedisClient.NewSessionId lifetime keystr st).2.pttl keystr = some (some t) →
          gap < t) →
        (RedisClient.IsExists lifetime gap (RedisClient.NewSessionId lifetime keystr st).2
          keystr).1 = (true, none))
    ∧ (0 < lifetime → lifetime ≤ 9223372036 → ∀ gap : Nat,
        (gap < lifetime.toNat * 1000 →
          (RedisClient.IsExists lifetime gap (RedisClient.NewSessionId lifetime keystr st).2
            keystr).1 = (true, none))
        ∧ (lifetime.toNat * 1000 ≤ gap →
          (RedisClient.IsExists lifetime gap (RedisClient.NewSessionId lifetime keystr st).2
            keystr).1 = (false, some .ErrorFailed)))
    ∧ ∀ (gap : Nat) (suffix : GoString),
        (RedisClient.Get lifetime gap (RedisClient.NewSessionId lifetime keystr st).2
          keystr suffix).1 = .err .ErrorSuffiedKeyNotFound := by
  have hget : (RedisClient.NewSessionId lifetime keystr st).2.get keystr = some [] := by
    unfold RedisClient.NewSessionId
    exact clientSet_get _ _ _ _
  have hsome : ((RedisClient.NewSessionId lifetime keystr st).2.get keystr).isSome = true := by
    rw [hget]; rfl
  have hl : ((RedisClient.NewSessionId lifetime keystr st).2.lookup keystr).isSome = true := by
    unfold Store.get at hget
    cases h : (RedisClient.NewSessionId lifetime keystr st).2.lookup keystr with
    | none => rw [h] at hget; cases hget
    | some e => rfl
  have hlive : ∀ gap : Nat,
      (∀ t, (RedisClient.NewSessionId lifetime keystr st).2.pttl keystr = some (some t) →
        gap < t) →
      (RedisClient.IsExists lifetime gap (RedisClient.NewSessionId lifetime keystr st).2
        keystr).1 = (true, none) := by
    intro gap h
    rw [IsExists_of_present lifetime gap _ keystr hsome,
      if_pos (lookup_elapse_live _ keystr gap hl h)]
  refine ⟨rfl, hget, ?_, hlive, ?_, ?_⟩
  · rw [IsExists_of_present lifetime 0 _ keystr hsome, elapse_zero, if_pos hl]
  · intro hpos hmax gap
    have hp : (RedisClient.NewSessionId lifetime keystr st).2.pttl keystr
        = some (some (lifetime.toNat * 1000)) := by
      unfold RedisClient.NewSessionId
      exact clientSet_pttl _ _ _ _ hpos hmax
    constructor
    · intro hgap
      apply hlive gap
      intro t ht
      rw [hp] at ht
      simp only [Option.some.injEq] at ht
      omega
    · intro hgap
      rw [IsExists_of_present lifetime gap _ keystr hsome,
        lookup_elapse_expired _ keystr gap _ hp hgap]
      rfl
  · intro gap suffix
    rw [RedisClient.Get_fst, hget]
    rfl

/-- C9 at the store without keys, with a lifetime of 600 seconds: `IsExists`
returns `(true, nil)` at once and 599999 milliseconds later. -/
theorem new_session_live_and_empty_witness :
    (0 : Int) < 600
    ∧ (RedisClient.IsExists 600 0 (RedisClient.NewSessionId 600 exampleKey emptyStore).2
        exampleKey).1 = (true, none)
    ∧ (RedisClient.IsExists 600 599999 (RedisClient.NewSessionId 600 exampleKey emptyStore).2
        exampleKey).1 = (true, none) :=
  ⟨by decide, (new_session_live_and_empty 600 exampleKey emptyStore).2.2.1,
    ((new_session_live_and_empty 600 exampleKey emptyStore).2.2.2.2.1
      (by decide) (by decide) 599999).1 (by decide)⟩

/-! ## C10: `Destroy` -/

theorem lookup_del_self (st : Store) (key : GoString) : (st.del key).2.lookup key = none := by
  simp [Store.del, Store.lookup]

/-- C10: `Destroy` returns no error for every key of a reachable store,
present or not; afterwards the key is absent and `IsExists` returns
`ErrorKeyNotFound`; a second `Destroy` returns no error and leaves the store
of the first; the entry of every other key, its value and its expiry, and the
clock are unchanged. -/
theorem destroy_idempotent (lifetime : Int) (gap : Nat) (st : Store) (key : GoString) :
    (RedisClient.Destroy st key).1 = .ok ()
    ∧ (RedisClient.Destroy st key).2.get key = none
    ∧ (RedisClient.IsExists lifetime gap (RedisClient.Destroy st key).2 key).1
        = (false, some .ErrorKeyNotFound)
    ∧ RedisClient.Destroy (RedisClient.Destroy st key).2 key
        = (.ok (), (RedisClient.Destroy st key).2)
    ∧ (RedisClient.Destroy st key).2.now = st.now
    ∧ ∀ k, k ≠ key →
        (RedisClient.Destroy st key).2.data k = st.data k
        ∧ (RedisClient.Destroy st key).2.get k = st.get k
        ∧ (RedisClient.Destroy st key).2.pttl k = st.pttl k := by
  have hget : (RedisClient.Destroy st key).2.get key = none := by
    unfold RedisClient.Destroy
    exact (get_eq_none_iff _ _).mpr (lookup_del_self st key)
  refine ⟨rfl, hget, ?_, ?_, rfl, ?_⟩
  · rw [IsExists_absent lifetime gap _ key hget]
  · unfold RedisClient.Destroy Store.del
    simp
  · intro k hk
    have hd : (RedisClient.Destroy st key).2.data k = st.data k := by
      unfold RedisClient.Destroy Store.del
      simp [Function.update_noteq hk]
    refine ⟨hd, ?_, ?_⟩
    · unfold Store.get Store.lookup
      rw [hd]; rfl
    · unfold Store.pttl Store.lookup
      rw [hd]; rfl

end Redicoo
